import Mathlib

/-!
Verification of the prompt-construction / batched-dispatch / response-extraction
pipeline of `src/scripts/generate_answer.py`.

The Python source is shallowly embedded: pure functions become Lean functions,
exception-raising code returns `Except PyErr`, and the external generative
backend is a parameter (`Backend`).  The standard-library `json.loads` /
`json.dumps` calls are modelled by an executable fueled JSON parser and a
printer over an inductive `Json` type; numbers are restricted to integers
(the pipeline never relies on floats) and the parser is lenient about raw
control characters inside strings (Python's `strict=False` behaviour), which
is irrelevant to every property proved below.
-/

namespace GenAnswer

/-- Whitespace recognised by Python's `str.strip()` (ASCII part). -/
def isPySpace (c : Char) : Bool :=
  c = ' ' || c = '\t' || c = '\n' || c = '\r' || c = '\x0b' || c = '\x0c'

/-- `cs` with leading and trailing characters satisfying `p` removed:
the model of Python's `str.strip(chars)`. -/
def pyStripChars (p : Char → Bool) (cs : List Char) : List Char :=
  ((cs.dropWhile p).reverse.dropWhile p).reverse

/-- Whitespace recognised between JSON tokens by `json.loads`. -/
def isJsonWs (c : Char) : Bool :=
  c = ' ' || c = '\t' || c = '\n' || c = '\r'

/-- Drop leading JSON whitespace. -/
def skipWs : List Char → List Char
  | [] => []
  | c :: cs => if isJsonWs c then skipWs cs else c :: cs

/-- ASCII decimal digit test (the JSON grammar's `DIGIT`). -/
def isDigitC (c : Char) : Bool :=
  48 ≤ c.toNat && c.toNat ≤ 57

/-- The decimal digit character for `d ∈ [0, 9]`. -/
def digitChar : Nat → Char
  | 0 => '0' | 1 => '1' | 2 => '2' | 3 => '3' | 4 => '4'
  | 5 => '5' | 6 => '6' | 7 => '7' | 8 => '8' | _ => '9'

/-- Value of a decimal digit character. -/
def digitVal (c : Char) : Nat := c.toNat - 48

/-- Numeric value of a most-significant-first digit string. -/
def digitsToNat (l : List Char) : Nat :=
  l.foldl (fun a c => a * 10 + digitVal c) 0

/-- Decimal digits of `n`, most significant first. -/
def natChars (n : Nat) : List Char :=
  if _h : n < 10 then [digitChar n]
  else natChars (n / 10) ++ [digitChar (n % 10)]
  decreasing_by exact Nat.div_lt_self (by omega) (by omega)

/-- Decimal rendering of an integer. -/
def intChars (n : Int) : List Char :=
  if n < 0 then '-' :: natChars n.natAbs else natChars n.toNat

/-- Value of a hexadecimal digit character, if it is one. -/
def hexVal (c : Char) : Option Nat :=
  if 48 ≤ c.toNat ∧ c.toNat ≤ 57 then some (c.toNat - 48)
  else if 97 ≤ c.toNat ∧ c.toNat ≤ 102 then some (c.toNat - 87)
  else if 65 ≤ c.toNat ∧ c.toNat ≤ 70 then some (c.toNat - 55)
  else none

/-- JSON values as parsed by Python's `json` module, with numbers restricted
to integers.  Objects are association lists in textual order. -/
inductive Json where
  | null : Json
  | bool (b : Bool) : Json
  | num (n : Int) : Json
  | str (s : String) : Json
  | arr (xs : List Json) : Json
  | obj (kvs : List (String × Json)) : Json

/-- Escape of one character inside a JSON string literal, as emitted by the
serializer (`json.dumps`); quotes, backslashes and the named control escapes. -/
def escapeChar (c : Char) : List Char :=
  if c = '"' then ['\\', '"']
  else if c = '\\' then ['\\', '\\']
  else if c = '\n' then ['\\', 'n']
  else if c = '\t' then ['\\', 't']
  else if c = '\r' then ['\\', 'r']
  else [c]

/-- Serialized JSON string literal (with surrounding quotes). -/
def dumpStr (l : List Char) : List Char :=
  '"' :: (l.map escapeChar).flatten ++ ['"']

mutual

/-- Compact serialization of a JSON value: the model of `json.dumps` with its
default `", "` / `": "` separators. -/
def dumpV : Json → List Char
  | .null => ['n', 'u', 'l', 'l']
  | .bool false => ['f', 'a', 'l', 's', 'e']
  | .bool true => ['t', 'r', 'u', 'e']
  | .num n => intChars n
  | .str s => dumpStr s.data
  | .arr [] => ['[', ']']
  | .arr (x :: xs) => '[' :: (dumpElems x xs ++ [']'])
  | .obj [] => ['\x7b', '\x7d']
  | .obj (m :: ms) => '\x7b' :: (dumpMembers m ms ++ ['\x7d'])
  termination_by v => sizeOf v
  decreasing_by all_goals (simp <;> omega)

/-- Serialization of the elements of a non-empty array, without brackets. -/
def dumpElems : Json → List Json → List Char
  | x, [] => dumpV x
  | x, y :: ys => dumpV x ++ ',' :: ' ' :: dumpElems y ys
  termination_by x xs => 1 + sizeOf x + sizeOf xs
  decreasing_by all_goals (simp <;> omega)

/-- Serialization of the members of a non-empty object, without braces. -/
def dumpMembers : String × Json → List (String × Json) → List Char
  | (k, v), [] => dumpStr k.data ++ ':' :: ' ' :: dumpV v
  | (k, v), m2 :: ms => dumpStr k.data ++ ':' :: ' ' :: dumpV v ++ ',' :: ' ' :: dumpMembers m2 ms
  termination_by m ms => 1 + sizeOf m + sizeOf ms
  decreasing_by all_goals (simp <;> omega)

end

/-- `json.dumps` on a value, as a string. -/
def dumps (j : Json) : String := ⟨dumpV j⟩

mutual

/-- Fuel needed by the fueled parser to re-read a serialized value. -/
def costV : Json → Nat
  | .null => 1
  | .bool _ => 1
  | .num _ => 1
  | .str _ => 1
  | .arr [] => 1
  | .arr (x :: xs) => 1 + costE x xs
  | .obj [] => 1
  | .obj (m :: ms) => 1 + costM m ms
  termination_by v => sizeOf v
  decreasing_by all_goals (simp <;> omega)

/-- Fuel needed to parse the serialized elements of a non-empty array. -/
def costE : Json → List Json → Nat
  | x, [] => 1 + costV x
  | x, y :: ys => 1 + max (costV x) (costE y ys)
  termination_by x xs => 1 + sizeOf x + sizeOf xs
  decreasing_by all_goals (simp <;> omega)

/-- Fuel needed to parse the serialized members of a non-empty object. -/
def costM : String × Json → List (String × Json) → Nat
  | (k, v), [] => 1 + costV v
  | (k, v), m2 :: ms => 1 + max (costV v) (costM m2 ms)
  termination_by m ms => 1 + sizeOf m + sizeOf ms
  decreasing_by all_goals (simp <;> omega)

end

/-- Unescape table for the named JSON string escapes. -/
def unescapeChar (e : Char) : Option Char :=
  if e = '"' then some '"'
  else if e = '\\' then some '\\'
  else if e = '/' then some '/'
  else if e = 'b' then some '\x08'
  else if e = 'f' then some '\x0c'
  else if e = 'n' then some '\n'
  else if e = 'r' then some '\r'
  else if e = 't' then some '\t'
  else none

/-- Parse the body of a JSON string literal (the opening quote already
consumed), returning the decoded characters and the rest of the input. -/
def parseStrChars : List Char → Option (List Char × List Char)
  | [] => none
  | c :: cs =>
    if c = '"' then some ([], cs)
    else if c = '\\' then
      match cs with
      | [] => none
      | e :: cs1 =>
        if e = 'u' then
          match cs1 with
          | h1 :: h2 :: h3 :: h4 :: cs2 =>
            match hexVal h1, hexVal h2, hexVal h3, hexVal h4 with
            | some a, some b, some d, some e4 =>
              let m := ((a * 16 + b) * 16 + d) * 16 + e4
              if m < 0xd800 ∨ (0xe000 ≤ m ∧ m < 0x110000) then
                match parseStrChars cs2 with
                | some (s, r) => some (Char.ofNat m :: s, r)
                | none => none
              else none
            | _, _, _, _ => none
          | _ => none
        else
          match unescapeChar e with
          | some c2 =>
            match parseStrChars cs1 with
            | some (s, r) => some (c2 :: s, r)
            | none => none
          | none => none
    else
      match parseStrChars cs with
      | some (s, r) => some (c :: s, r)
      | none => none

/-- Parse a JSON number (integer form). -/
def parseNum : List Char → Option (Json × List Char)
  | [] => none
  | c :: rest =>
    if c = '-' then
      if rest.takeWhile isDigitC = [] then none
      else some (.num (-(digitsToNat (rest.takeWhile isDigitC) : Int)), rest.dropWhile isDigitC)
    else
      if (c :: rest).takeWhile isDigitC = [] then none
      else some (.num ((digitsToNat ((c :: rest).takeWhile isDigitC) : Int)),
        (c :: rest).dropWhile isDigitC)

mutual

/-- Fueled JSON value parser: the model of `json.loads`' recursive descent.
Returns the parsed value and the unconsumed rest of the input. -/
def parseValue : Nat → List Char → Option (Json × List Char)
  | 0, _ => none
  | n + 1, cs =>
    match skipWs cs with
    | [] => none
    | c :: cs1 =>
      if c = 'n' then
        match cs1 with
        | 'u' :: 'l' :: 'l' :: rest => some (.null, rest)
        | _ => none
      else if c = 't' then
        match cs1 with
        | 'r' :: 'u' :: 'e' :: rest => some (.bool true, rest)
        | _ => none
      else if c = 'f' then
        match cs1 with
        | 'a' :: 'l' :: 's' :: 'e' :: rest => some (.bool false, rest)
        | _ => none
      else if c = '"' then
        match parseStrChars cs1 with
        | some (s, r) => some (.str ⟨s⟩, r)
        | none => none
      else if c = '[' then
        match skipWs cs1 with
        | d :: rest =>
          if d = ']' then some (.arr [], rest)
          else
            match parseElems n cs1 with
            | some (xs, r) => some (.arr xs, r)
            | none => none
        | [] => none
      else if c = '\x7b' then
        match skipWs cs1 with
        | d :: rest =>
          if d = '\x7d' then some (.obj [], rest)
          else
            match parseMembers n cs1 with
            | some (ms, r) => some (.obj ms, r)
            | none => none
        | [] => none
      else if c = '-' || isDigitC c then parseNum (c :: cs1)
      else none

/-- Fueled parser for the element list of a non-empty array, consuming the
closing bracket. -/
def parseElems : Nat → List Char → Option (List Json × List Char)
  | 0, _ => none
  | n + 1, cs =>
    match parseValue n cs with
    | none => none
    | some (v, cs1) =>
      match skipWs cs1 with
      | d :: cs2 =>
        if d = ',' then
          match parseElems n cs2 with
          | some (xs, r) => some (v :: xs, r)
          | none => none
        else if d = ']' then some ([v], cs2)
        else none
      | [] => none

/-- Fueled parser for the member list of a non-empty object, consuming the
closing brace. -/
def parseMembers : Nat → List Char → Option (List (String × Json) × List Char)
  | 0, _ => none
  | n + 1, cs =>
    match skipWs cs with
    | d :: cs0 =>
      if d = '"' then
        match parseStrChars cs0 with
        | some (k, cs1) =>
          match skipWs cs1 with
          | e :: cs2 =>
            if e = ':' then
              match parseValue n cs2 with
              | some (v, cs3) =>
                match skipWs cs3 with
                | g :: cs4 =>
                  if g = ',' then
                    match parseMembers n cs4 with
                    | some (ms, r) => some ((⟨k⟩, v) :: ms, r)
                    | none => none
                  else if g = '\x7d' then some ([(⟨k⟩, v)], cs4)
                  else none
                | [] => none
              | none => none
            else none
          | [] => none
        | none => none
      else none
    | [] => none

end

/-- `json.loads` on a character list: parse one value, allow only trailing
whitespace. -/
def jsonLoadsChars (cs : List Char) : Option Json :=
  match parseValue (cs.length + 1) cs with
  | some (v, rest) => if skipWs rest = [] then some v else none
  | none => none

/-- `json.loads` on a string. -/
def jsonLoads (s : String) : Option Json := jsonLoadsChars s.data

/-- The Python exceptions the embedded pipeline can raise. -/
inductive PyErr where
  | keyError (k : String) : PyErr
  | attributeError : PyErr
  | typeError : PyErr
  | jsonDecode : PyErr
  | valueError : PyErr
  | transport (msg : String) : PyErr
  deriving DecidableEq

/-- One line of `re.sub(r"^```(?:json)?|```$", "", text, flags=re.MULTILINE)`:
drop a leading "```json" or "```" and then a trailing "```". -/
def stripLine (l : List Char) : List Char :=
  let l1 :=
    if ("```json".data).isPrefixOf l then l.drop 7
    else if ("```".data).isPrefixOf l then l.drop 3
    else l
  if ("```".data).isSuffixOf l1 then l1.take (l1.length - 3) else l1

/-- Split at every newline, keeping empty lines (Python line semantics for
the `re.MULTILINE` anchors). -/
def splitLines : List Char → List (List Char)
  | [] => [[]]
  | c :: rest =>
    if c = '\n' then [] :: splitLines rest
    else
      match splitLines rest with
      | l :: ls => (c :: l) :: ls
      | [] => [[c]]

/-- Rejoin lines with newlines. -/
def joinLines : List (List Char) → List Char
  | [] => []
  | [l] => l
  | l :: ls => l ++ '\n' :: joinLines ls

/-- The fence-stripping substitution applied by `extract_json_array`. -/
def stripFences (cs : List Char) : List Char :=
  joinLines ((splitLines cs).map stripLine)

/-- Python `str.find`: index of the first occurrence of `c`. -/
def firstIdxOf (cs : List Char) (c : Char) : Option Nat :=
  cs.findIdx? (· = c)

/-- Python `str.rfind`: index of the last occurrence of `c`. -/
def lastIdxOf (cs : List Char) (c : Char) : Option Nat :=
  (cs.reverse.findIdx? (· = c)).map (fun i => cs.length - 1 - i)

/-- `extract_json_array` (source lines 39-45): strip code fences and outer
whitespace, locate the first `[` and last `]`, and `json.loads` the slice
between them.  A missing bracket yields `[]`; an unparseable slice raises
`json.JSONDecodeError`, which this embedding surfaces as `.error .jsonDecode`
(a successful parse of a slice that starts at `[` is always an array). -/
def extract_json_array (text : String) : Except PyErr (List Json) :=
  let clean := pyStripChars isPySpace (stripFences text.data)
  match firstIdxOf clean '[', lastIdxOf clean ']' with
  | some s, some e =>
    match jsonLoadsChars ((clean.drop s).take (e + 1 - s)) with
    | some (.arr xs) => .ok xs
    | some _ => .error .jsonDecode
    | none => .error .jsonDecode
  | some _, none => .ok []
  | none, _ => .ok []

/-- ASCII lowercase of one character (`str.lower`; the lookup keys the
normalizer compares against are pure ASCII). -/
def lowerChar (c : Char) : Char :=
  if 65 ≤ c.toNat ∧ c.toNat ≤ 90 then Char.ofNat (c.toNat + 32) else c

/-- `normalize_answer` (source lines 34-36): strip whitespace, strip double
quotes, lowercase, then look up in the closed three-entry mapping with
default `"Not Applicable"`. -/
def normalize_answer (raw : String) : String :=
  let key := String.mk ((pyStripChars (· = '"') (pyStripChars isPySpace raw.data)).map lowerChar)
  if key = "yes" then "Yes"
  else if key = "no" then "No"
  else if key = "not applicable" then "Not Applicable"
  else "Not Applicable"

/-- The per-line accumulation loop of `load_jsonl`: append parsed lines until
the first malformed one; `json.JSONDecodeError` aborts the loop and the
already-accumulated examples are returned. -/
def loadLines : List String → List Json
  | [] => []
  | l :: ls =>
    match jsonLoads l with
    | some j => j :: loadLines ls
    | none => []

/-- `load_jsonl` (source lines 48-59).  `none` models a missing file
(`FileNotFoundError` is caught and logged); `some lines` is the file
content.  Never raises. -/
def load_jsonl (file : Option (List String)) : List Json :=
  match file with
  | none => []
  | some lines => loadLines lines

/-- Indentation for `json.dumps(..., indent=2)` at nesting level `lvl`. -/
def indentChars (lvl : Nat) : List Char := List.replicate (2 * lvl) ' '

mutual

/-- Pretty serialization: the model of `json.dumps(v, indent=2)` used by
`build_prompt`. -/
def pdumpV : Nat → Json → List Char
  | _, .null => ['n', 'u', 'l', 'l']
  | _, .bool true => ['t', 'r', 'u', 'e']
  | _, .bool false => ['f', 'a', 'l', 's', 'e']
  | _, .num n => intChars n
  | _, .str s => dumpStr s.data
  | _, .arr [] => ['[', ']']
  | lvl, .arr (x :: xs) =>
    '[' :: '\n' :: indentChars (lvl + 1) ++ pdumpElems (lvl + 1) x xs
      ++ '\n' :: indentChars lvl ++ [']']
  | _, .obj [] => ['\x7b', '\x7d']
  | lvl, .obj (m :: ms) =>
    '\x7b' :: '\n' :: indentChars (lvl + 1) ++ pdumpMembers (lvl + 1) m ms
      ++ '\n' :: indentChars lvl ++ ['\x7d']
  termination_by _ v => sizeOf v
  decreasing_by all_goals (simp <;> omega)

/-- Elements of a pretty-printed non-empty array. -/
def pdumpElems : Nat → Json → List Json → List Char
  | lvl, x, [] => pdumpV lvl x
  | lvl, x, y :: ys => pdumpV lvl x ++ ',' :: '\n' :: indentChars lvl ++ pdumpElems lvl y ys
  termination_by _ x xs => 1 + sizeOf x + sizeOf xs
  decreasing_by all_goals (simp <;> omega)

/-- Members of a pretty-printed non-empty object. -/
def pdumpMembers : Nat → String × Json → List (String × Json) → List Char
  | lvl, (k, v), [] => dumpStr k.data ++ ':' :: ' ' :: pdumpV lvl v
  | lvl, (k, v), m2 :: ms =>
    dumpStr k.data ++ ':' :: ' ' :: pdumpV lvl v ++ ',' :: '\n' :: indentChars lvl
      ++ pdumpMembers lvl m2 ms
  termination_by _ m ms => 1 + sizeOf m + sizeOf ms
  decreasing_by all_goals (simp <;> omega)

end

/-- `json.dumps(j, indent=2, ensure_ascii=False)` as a string. -/
def jdumps2 (j : Json) : String := ⟨pdumpV 0 j⟩

/-- Exception-propagating `List.map` over `Except` (the meaning of a Python
list comprehension or `for` loop whose body may raise). -/
def exMapM (f : α → Except ε β) : List α → Except ε (List β)
  | [] => .ok []
  | a :: l =>
    match f a with
    | .error e => .error e
    | .ok b =>
      match exMapM f l with
      | .error e => .error e
      | .ok bs => .ok (b :: bs)

/-- Failure-propagating `List.map` over `Option`. -/
def omapM (f : α → Option β) : List α → Option (List β)
  | [] => some []
  | a :: l =>
    match f a with
    | none => none
    | some b =>
      match omapM f l with
      | none => none
      | some bs => some (b :: bs)

/-- An input record: a JSON object's members, as Python dicts in textual
order (`records = json.loads(...)`, each element an object). -/
abbrev Record := List (String × Json)

/-- Association-list lookup (Python dict indexing for parsed JSON objects). -/
def alookup : List (String × Json) → String → Option Json
  | [], _ => none
  | (k, v) :: rest, key => if k = key then some v else alookup rest key

/-- Python `ex.get(key, default)` on a JSON value: requires a dict
(`AttributeError` otherwise). -/
def exGet (ex : Json) (key : String) : Except PyErr (Option Json) :=
  match ex with
  | .obj kvs => .ok (alookup kvs key)
  | _ => .error .attributeError

/-- Python `ex[key]` on a JSON value: `KeyError` when absent, `TypeError`
when `ex` is not a dict. -/
def exIndex (ex : Json) (key : String) : Except PyErr Json :=
  match ex with
  | .obj kvs =>
    match alookup kvs key with
    | some v => .ok v
    | none => .error (.keyError key)
  | _ => .error .typeError

/-- The fixed schema-and-instructions block of `build_prompt` (source lines
66-73). -/
def schemaBlock : String :=
  "Output schema:\n[\n  \x7b \"question\": \"string\", \"answer\": \"Yes|No|Not Applicable\" \x7d\n]\n\nYou are an auditor assessing payment controls. Return ONLY a JSON array matching the schema above. No extra text.\n\n"

/-- The closing instruction block of `build_prompt` (source lines 95-101). -/
def finalAsk : String :=
  "Return a JSON array of QA pairs:\n[\n  \x7b \"question\": \"...\", \"answer\": \"Yes\" \x7d,\n  …\n]\n"

/-- One rendered few-shot exemplar block (source lines 76-84): the exemplar's
own control set is used, falling back to the global `controls` when the
exemplar has no `controls` key. -/
def renderExemplar (controls : Json) (ex : Json) : Except PyErr String :=
  match exGet ex "controls" with
  | .error e => .error e
  | .ok exControlsOpt =>
    let exControls := exControlsOpt.getD controls
    match exIndex ex "payment" with
    | .error e => .error e
    | .ok payment =>
      match exIndex ex "qa_pairs" with
      | .error e => .error e
      | .ok qaPairs =>
        .ok ("Payment record (example):\n" ++ jdumps2 payment ++ "\n\n"
          ++ "Controls (example):\n" ++ jdumps2 exControls ++ "\n\n"
          ++ "QA pairs (example):\n" ++ jdumps2 qaPairs ++ "\n\n"
          ++ "---\n\n")

/-- `build_prompt` (source lines 62-102).  Deterministic and pure; the only
failures are attribute/key errors on structurally invalid exemplars and the
`KeyError("questions")` raised by `record["questions"]` (the spec's
`MissingFieldError`). -/
def build_prompt (record : Record) (few_shots : List Json) (controls : Json) : Except PyErr String :=
  let header := "Control definitions:\n" ++ jdumps2 controls ++ "\n\n" ++ schemaBlock
  match
    (if few_shots.isEmpty then .ok "(No few-shot examples configured)\n\n"
     else
       match exMapM (renderExemplar controls) few_shots with
       | .error e => .error e
       | .ok blocks => .ok (String.join blocks) : Except PyErr String)
  with
  | .error e => .error e
  | .ok shotsPart =>
    match alookup record "questions" with
    | none => .error (.keyError "questions")
    | some questions =>
      .ok (header ++ shotsPart
        ++ "Payment record:\n" ++ jdumps2 (.obj record) ++ "\n\n"
        ++ "Controls:\n" ++ jdumps2 controls ++ "\n\n"
        ++ "Questions:\n" ++ jdumps2 questions ++ "\n\n"
        ++ finalAsk)

/-- One question/answer output pair. -/
structure QAPair where
  question : String
  answer : String
  deriving DecidableEq

/-- One output line of `qa_predictions.jsonl`. -/
structure PredictionRecord where
  payment_id : Json
  answers : List QAPair

/-- `rec.get("payment_id", "<no-id>")`. -/
def recId (rec : Record) : Json :=
  (alookup rec "payment_id").getD (.str "<no-id>")

/-- The generative backend, probed by the dispatcher: either it exposes the
bulk `generate_batch` capability, or only per-prompt `generate_content`
calls.  A `singleOnly` oracle maps the global submission index of a call to
its reply text, or `none` when that call raises. -/
inductive Backend where
  | bulkCapable (gen : List String → Except PyErr (List String)) : Backend
  | singleOnly (oracle : Nat → Option String) : Backend

/-- The raw reply used for call `i`: the oracle's text, or `""` when the
call raised (source lines 186-190). -/
def textFor (oracle : Nat → Option String) (i : Nat) : String :=
  (oracle i).getD ""

/-- The parallel-fallback collection loop (source lines 178-190):
`texts = [None] * len(prompts)` then `texts[idx] = result-or-""` as the
futures complete, in completion order `order` of submission indices. -/
def fallbackTexts (oracle : Nat → Option String) (base n : Nat) (order : List Nat) :
    List (Option String) :=
  order.foldl (fun texts idx => texts.set idx (some (textFor oracle (base + idx))))
    (List.replicate n none)

/-- The per-batch reply texts: the bulk endpoint when exposed (a transport
error propagates, source lines 166-175), otherwise the drained parallel
fallback pool. -/
def batchTexts (b : Backend) (base : Nat) (prompts : List String) :
    Except PyErr (List String) :=
  match b with
  | .bulkCapable gen => gen prompts
  | .singleOnly oracle =>
    .ok ((fallbackTexts oracle base prompts.length (List.range prompts.length)).map
      (fun t => t.getD ""))

/-- One parsed QA mapping (source lines 197-200): `qa.get` requires a dict
and `.strip()` / `normalize_answer` require string values. -/
def qaOfJson (qa : Json) : Except PyErr QAPair :=
  match qa with
  | .obj kvs =>
    match (alookup kvs "question").getD (.str ""), (alookup kvs "answer").getD (.str "") with
    | .str q, .str a => .ok ⟨String.mk (pyStripChars isPySpace q.data), normalize_answer a⟩
    | _, _ => .error .attributeError
  | _ => .error .attributeError

/-- Processing of one record's raw reply (source lines 194-202): extract the
JSON array, normalize every pair, wrap with the record's id. -/
def processRecord (rec : Record) (txt : String) : Except PyErr PredictionRecord :=
  match extract_json_array txt with
  | .error e => .error e
  | .ok arr =>
    match exMapM qaOfJson arr with
    | .error e => .error e
    | .ok answers => .ok ⟨recId rec, answers⟩

/-- One batch iteration (source lines 161-202): build the prompts, obtain
the texts, process each (record, text) pair positionally. -/
def runBatch (few_shots : List Json) (controls : Json) (b : Backend) (base : Nat)
    (batch : List Record) : Except PyErr (List PredictionRecord) :=
  match exMapM (fun r => build_prompt r few_shots controls) batch with
  | .error e => .error e
  | .ok prompts =>
    match batchTexts b base prompts with
    | .error e => .error e
    | .ok texts => exMapM (fun rt => processRecord rt.1 rt.2) (batch.zip texts)

/-- The batch loop `for i in range(0, len(records), batch_size)` with a
positive step, threading the global call index `base`.  `fuel` is an upper
bound on the number of iterations (each batch consumes at least one record,
so `records.length` suffices); it only makes the recursion structural and is
never exhausted on the calls the pipeline makes. -/
def dispatchAux (few_shots : List Json) (controls : Json) (b : Backend) (bs : Nat) :
    Nat → List Record → Nat → Except PyErr (List PredictionRecord)
  | _, [], _ => .ok []
  | 0, _ :: _, _ => .error .valueError
  | fuel + 1, r :: rs, base =>
    match runBatch few_shots controls b base ((r :: rs).take bs) with
    | .error e => .error e
    | .ok out =>
      match dispatchAux few_shots controls b bs fuel ((r :: rs).drop bs)
          (base + ((r :: rs).take bs).length) with
      | .error e => .error e
      | .ok rest => .ok (out ++ rest)

/-- The dispatch stage (source lines 157-202): `range(0, n, 0)` raises
`ValueError`, otherwise the records are processed in contiguous batches. -/
def dispatch (few_shots : List Json) (controls : Json) (b : Backend)
    (records : List Record) (batch_size : Nat) : Except PyErr (List PredictionRecord) :=
  if batch_size = 0 then .error .valueError
  else dispatchAux few_shots controls b batch_size records.length records 0

/-- Dispatch with the default batch size
`cfg.get("generation", {}).get("batch_size", len(records))` (source line
157). -/
def dispatchDefault (few_shots : List Json) (controls : Json) (b : Backend)
    (records : List Record) : Except PyErr (List PredictionRecord) :=
  dispatch few_shots controls b records records.length

/-- Pair every element with its index, starting at `base`. -/
def withIdxFrom : Nat → List α → List (α × Nat)
  | _, [] => []
  | i, a :: l => (a, i) :: withIdxFrom (i + 1) l

/-! ### Basic lemmas about characters, digits and stripping -/

/-- A list whose head (if any) is not a digit; what may legally follow a
serialized number. -/
def headNotDigit : List Char → Prop
  | [] => True
  | c :: _ => isDigitC c = false

theorem isDigitC_digitChar (d : Nat) : isDigitC (digitChar d) = true := by
  unfold digitChar
  split <;> decide

theorem digitVal_digitChar (d : Nat) (h : d < 10) : digitVal (digitChar d) = d := by
  interval_cases d <;> decide

theorem natChars_ne_nil (n : Nat) : natChars n ≠ [] := by
  rw [natChars]
  split
  · simp
  · simp

theorem natChars_digits (n : Nat) : ∀ c ∈ natChars n, isDigitC c = true := by
  induction n using Nat.strong_induction_on with
  | _ n ih =>
    rw [natChars]
    by_cases h : n < 10
    · rw [dif_pos h]
      intro c hc
      simp at hc
      subst hc
      exact isDigitC_digitChar n
    · rw [dif_neg h]
      intro c hc
      rcases List.mem_append.mp hc with h1 | h1
      · exact ih (n / 10) (Nat.div_lt_self (by omega) (by omega)) c h1
      · simp at h1
        subst h1
        exact isDigitC_digitChar (n % 10)

theorem digitsToNat_append_one (l : List Char) (c : Char) :
    digitsToNat (l ++ [c]) = digitsToNat l * 10 + digitVal c := by
  simp [digitsToNat, List.foldl_append]

theorem digitsToNat_natChars (n : Nat) : digitsToNat (natChars n) = n := by
  induction n using Nat.strong_induction_on with
  | _ n ih =>
    rw [natChars]
    by_cases h : n < 10
    · rw [dif_pos h]
      simp [digitsToNat, digitVal_digitChar n h]
    · rw [dif_neg h, digitsToNat_append_one,
        ih (n / 10) (Nat.div_lt_self (by omega) (by omega)),
        digitVal_digitChar (n % 10) (Nat.mod_lt _ (by omega))]
      omega

theorem takeWhile_all_append (p : Char → Bool) :
    ∀ (l r : List Char), (∀ c ∈ l, p c = true) →
      (match r with | [] => True | c :: _ => p c = false) →
      (l ++ r).takeWhile p = l ∧ (l ++ r).dropWhile p = r := by
  intro l r hl hr
  induction l with
  | nil =>
    cases r with
    | nil => simp
    | cons c t => simp [List.takeWhile_cons, List.dropWhile_cons, hr]
  | cons c t iht =>
    have hc : p c = true := hl c (by simp)
    have ht := iht (fun d hd => hl d (by simp [hd]))
    simp [List.takeWhile_cons, List.dropWhile_cons, hc, ht.1, ht.2]

theorem skipWs_space (cs : List Char) : skipWs (' ' :: cs) = skipWs cs := by
  simp [skipWs, isJsonWs]

theorem skipWs_not_ws {c : Char} (h : isJsonWs c = false) (cs : List Char) :
    skipWs (c :: cs) = c :: cs := by
  simp [skipWs, h]

/-- A digit character is none of the parser's token-start or delimiter
characters, and is not whitespace. -/
theorem isDigitC_facts {c : Char} (h : isDigitC c = true) :
    c ≠ 'n' ∧ c ≠ 't' ∧ c ≠ 'f' ∧ c ≠ '"' ∧ c ≠ '[' ∧ c ≠ '\x7b' ∧ c ≠ '-' ∧
      isJsonWs c = false ∧ c ≠ ']' ∧ c ≠ ',' ∧ c ≠ '\x7d' := by
  refine ⟨?_, ?_, ?_, ?_, ?_, ?_, ?_, ?_, ?_, ?_, ?_⟩
  all_goals first
    | (intro heq; subst heq; exact absurd h (by decide))
    | (rcases hw : isJsonWs c with _ | _
       · rfl
       · exfalso
         have : c = ' ' ∨ c = '\t' ∨ c = '\n' ∨ c = '\r' := by
           simpa [isJsonWs, or_assoc] using hw
         rcases this with rfl | rfl | rfl | rfl <;> exact absurd h (by decide))

theorem pyStripChars_eq_self (p : Char → Bool) (c d : Char) (l : List Char)
    (h1 : p c = false) (h2 : p d = false) :
    pyStripChars p (c :: (l ++ [d])) = c :: (l ++ [d]) := by
  unfold pyStripChars
  rw [List.dropWhile_cons]
  simp only [h1, Bool.false_eq_true, if_false]
  have hrev : (c :: (l ++ [d])).reverse = d :: (l.reverse ++ [c]) := by
    simp
  rw [hrev, List.dropWhile_cons]
  simp [h2]

/-! ### Parser/printer roundtrip: numbers and strings -/

theorem parseNum_cons (c : Char) (rest : List Char) :
    parseNum (c :: rest) =
      if c = '-' then
        if rest.takeWhile isDigitC = [] then none
        else some (.num (-(digitsToNat (rest.takeWhile isDigitC) : Int)),
          rest.dropWhile isDigitC)
      else
        if (c :: rest).takeWhile isDigitC = [] then none
        else some (.num ((digitsToNat ((c :: rest).takeWhile isDigitC) : Int)),
          (c :: rest).dropWhile isDigitC) := by
  rw [parseNum.eq_def]

theorem parseNum_natChars (n : Nat) (rest : List Char) (hrest : headNotDigit rest) :
    parseNum (natChars n ++ rest) = some (.num (n : Int), rest) := by
  obtain ⟨c, t, hct⟩ := List.exists_cons_of_ne_nil (natChars_ne_nil n)
  have hdig : ∀ d ∈ natChars n, isDigitC d = true := natChars_digits n
  have hc : isDigitC c = true := hdig c (by rw [hct]; simp)
  have hsplit := takeWhile_all_append isDigitC (natChars n) rest hdig
    (by cases rest with
        | nil => trivial
        | cons d t2 => exact hrest)
  rw [hct] at hsplit ⊢
  rw [List.cons_append, parseNum_cons]
  rw [if_neg (by exact fun heq => absurd (heq ▸ hc) (by decide))]
  simp only [← List.cons_append, hsplit.1, hsplit.2]
  rw [if_neg (by rw [← hct]; exact natChars_ne_nil n), ← hct, digitsToNat_natChars]

theorem parseNum_intChars (k : Int) (rest : List Char) (hrest : headNotDigit rest) :
    parseNum (intChars k ++ rest) = some (.num k, rest) := by
  unfold intChars
  by_cases hk : k < 0
  · rw [if_pos hk, List.cons_append, parseNum_cons, if_pos rfl]
    have hdig : ∀ d ∈ natChars k.natAbs, isDigitC d = true := natChars_digits _
    have hsplit := takeWhile_all_append isDigitC (natChars k.natAbs) rest hdig
      (by cases rest with
          | nil => trivial
          | cons d t2 => exact hrest)
    simp only [hsplit.1, hsplit.2]
    rw [if_neg (natChars_ne_nil _), digitsToNat_natChars]
    have hneg : -(k.natAbs : Int) = k := by omega
    rw [hneg]
  · rw [if_neg hk, parseNum_natChars k.toNat rest hrest]
    have ht : (k.toNat : Int) = k := by omega
    rw [ht]

theorem parseStrChars_quote (cs : List Char) :
    parseStrChars ('"' :: cs) = some ([], cs) := by
  rw [parseStrChars.eq_def]
  dsimp only
  simp

theorem parseStrChars_raw (c : Char) (cs : List Char) (h1 : c ≠ '"') (h2 : c ≠ '\\') :
    parseStrChars (c :: cs) =
      match parseStrChars cs with
      | some (s, r) => some (c :: s, r)
      | none => none := by
  rw [parseStrChars.eq_def]
  dsimp only
  rw [if_neg h1, if_neg h2]

theorem parseStrChars_named (e c2 : Char) (cs : List Char) (hu : e ≠ 'u')
    (he : unescapeChar e = some c2) :
    parseStrChars ('\\' :: e :: cs) =
      match parseStrChars cs with
      | some (s, r) => some (c2 :: s, r)
      | none => none := by
  rw [parseStrChars.eq_def]
  dsimp only
  rw [if_neg (by decide), if_pos rfl, if_neg hu, he]

theorem parseStrChars_escape :
    ∀ (l rest : List Char),
      parseStrChars ((l.map escapeChar).flatten ++ '"' :: rest) = some (l, rest) := by
  intro l
  induction l with
  | nil =>
    intro rest
    simp [parseStrChars_quote]
  | cons c t ih =>
    intro rest
    simp only [List.map_cons, List.flatten_cons, List.append_assoc]
    by_cases h1 : c = '"'
    · subst h1
      have he : escapeChar '"' = ['\\', '"'] := rfl
      rw [he, List.cons_append, List.cons_append,
        parseStrChars_named '"' '"' _ (by decide) (by decide), List.nil_append, ih rest]
    · by_cases h2 : c = '\\'
      · subst h2
        have he : escapeChar '\\' = ['\\', '\\'] := rfl
        rw [he, List.cons_append, List.cons_append,
          parseStrChars_named '\\' '\\' _ (by decide) (by decide), List.nil_append, ih rest]
      · by_cases h3 : c = '\n'
        · subst h3
          have he : escapeChar '\n' = ['\\', 'n'] := rfl
          rw [he, List.cons_append, List.cons_append,
            parseStrChars_named 'n' '\n' _ (by decide) (by decide), List.nil_append, ih rest]
        · by_cases h4 : c = '\t'
          · subst h4
            have he : escapeChar '\t' = ['\\', 't'] := rfl
            rw [he, List.cons_append, List.cons_append,
              parseStrChars_named 't' '\t' _ (by decide) (by decide), List.nil_append, ih rest]
          · by_cases h5 : c = '\r'
            · subst h5
              have he : escapeChar '\r' = ['\\', 'r'] := rfl
              rw [he, List.cons_append, List.cons_append,
                parseStrChars_named 'r' '\r' _ (by decide) (by decide), List.nil_append, ih rest]
            · have he : escapeChar c = [c] := by
                unfold escapeChar
                rw [if_neg h1, if_neg h2, if_neg h3, if_neg h4, if_neg h5]
              rw [he, List.singleton_append, parseStrChars_raw c _ h1 h2, ih rest]

/-! ### Step equations for the fueled parser -/

theorem parseValue_step (n : Nat) (c : Char) (cs : List Char) (hc : isJsonWs c = false) :
    parseValue (n + 1) (c :: cs) =
      (if c = 'n' then
        match cs with
        | 'u' :: 'l' :: 'l' :: rest => some (.null, rest)
        | _ => none
      else if c = 't' then
        match cs with
        | 'r' :: 'u' :: 'e' :: rest => some (.bool true, rest)
        | _ => none
      else if c = 'f' then
        match cs with
        | 'a' :: 'l' :: 's' :: 'e' :: rest => some (.bool false, rest)
        | _ => none
      else if c = '"' then
        match parseStrChars cs with
        | some (s, r) => some (.str ⟨s⟩, r)
        | none => none
      else if c = '[' then
        match skipWs cs with
        | d :: rest =>
          if d = ']' then some (.arr [], rest)
          else
            match parseElems n cs with
            | some (xs, r) => some (.arr xs, r)
            | none => none
        | [] => none
      else if c = '\x7b' then
        match skipWs cs with
        | d :: rest =>
          if d = '\x7d' then some (.obj [], rest)
          else
            match parseMembers n cs with
            | some (ms, r) => some (.obj ms, r)
            | none => none
        | [] => none
      else if c = '-' || isDigitC c then parseNum (c :: cs)
      else none) := by
  rw [parseValue.eq_def]
  dsimp only
  rw [skipWs_not_ws hc]

theorem parseElems_step (n : Nat) (cs : List Char) :
    parseElems (n + 1) cs =
      (match parseValue n cs with
      | none => none
      | some (v, cs1) =>
        match skipWs cs1 with
        | d :: cs2 =>
          if d = ',' then
            match parseElems n cs2 with
            | some (xs, r) => some (v :: xs, r)
            | none => none
          else if d = ']' then some ([v], cs2)
          else none
        | [] => none) := by
  rw [parseElems.eq_def]

theorem parseMembers_step (n : Nat) (cs : List Char) :
    parseMembers (n + 1) cs =
      (match skipWs cs with
      | d :: cs0 =>
        if d = '"' then
          match parseStrChars cs0 with
          | some (k, cs1) =>
            match skipWs cs1 with
            | e :: cs2 =>
              if e = ':' then
                match parseValue n cs2 with
                | some (v, cs3) =>
                  match skipWs cs3 with
                  | g :: cs4 =>
                    if g = ',' then
                      match parseMembers n cs4 with
                      | some (ms, r) => some ((⟨k⟩, v) :: ms, r)
                      | none => none
                    else if g = '\x7d' then some ([(⟨k⟩, v)], cs4)
                    else none
                  | [] => none
                | none => none
              else none
            | [] => none
          | none => none
        else none
      | [] => none) := by
  rw [parseMembers.eq_def]

theorem parseValue_space (n : Nat) (cs : List Char) :
    parseValue n (' ' :: cs) = parseValue n cs := by
  cases n with
  | zero => rfl
  | succ n =>
    conv_lhs => rw [parseValue.eq_def]
    conv_rhs => rw [parseValue.eq_def]
    dsimp only
    rw [skipWs_space]

theorem parseElems_space (n : Nat) (cs : List Char) :
    parseElems n (' ' :: cs) = parseElems n cs := by
  cases n with
  | zero => rfl
  | succ n =>
    rw [parseElems_step, parseElems_step, parseValue_space]

theorem parseMembers_space (n : Nat) (cs : List Char) :
    parseMembers n (' ' :: cs) = parseMembers n cs := by
  cases n with
  | zero => rfl
  | succ n =>
    rw [parseMembers_step, parseMembers_step, skipWs_space]

/-! ### Shape facts about the serializer output -/

theorem dumpElems_shape (x : Json) (xs : List Json) :
    ∃ t, dumpElems x xs = dumpV x ++ t := by
  cases xs with
  | nil => exact ⟨[], by simp [dumpElems]⟩
  | cons y ys => exact ⟨',' :: ' ' :: dumpElems y ys, by simp [dumpElems]⟩

theorem dumpMembers_shape (m : String × Json) (ms : List (String × Json)) :
    ∃ t, dumpMembers m ms = '"' :: t := by
  obtain ⟨k, v⟩ := m
  cases ms with
  | nil =>
    refine ⟨(k.data.map escapeChar).flatten ++ ['"'] ++ ':' :: ' ' :: dumpV v, ?_⟩
    simp [dumpMembers, dumpStr]
  | cons m2 ms =>
    refine ⟨(k.data.map escapeChar).flatten ++ ['"']
      ++ ':' :: ' ' :: dumpV v ++ ',' :: ' ' :: dumpMembers m2 ms, ?_⟩
    simp [dumpMembers, dumpStr]

/-- The first character of any serialized value is not whitespace and is not
a closing delimiter. -/
theorem dumpV_head (v : Json) :
    ∃ c t, dumpV v = c :: t ∧ isJsonWs c = false ∧ c ≠ ']' ∧ c ≠ '\x7d' := by
  cases v with
  | null => exact ⟨'n', ['u', 'l', 'l'], by simp [dumpV], by decide, by decide, by decide⟩
  | bool b =>
    cases b with
    | true => exact ⟨'t', ['r', 'u', 'e'], by simp [dumpV], by decide, by decide, by decide⟩
    | false =>
      exact ⟨'f', ['a', 'l', 's', 'e'], by simp [dumpV], by decide, by decide, by decide⟩
  | num k =>
    by_cases hk : k < 0
    · refine ⟨'-', natChars k.natAbs, ?_, by decide, by decide, by decide⟩
      simp [dumpV, intChars, hk]
    · obtain ⟨c, t, hct⟩ := List.exists_cons_of_ne_nil (natChars_ne_nil k.toNat)
      have hc : isDigitC c = true := natChars_digits k.toNat c (by rw [hct]; simp)
      obtain ⟨-, -, -, -, -, -, -, hws, hrb, -, hcb⟩ := isDigitC_facts hc
      refine ⟨c, t, ?_, hws, hrb, hcb⟩
      rw [show dumpV (.num k) = intChars k from by simp [dumpV], intChars, if_neg hk, hct]
  | str s =>
    exact ⟨'"', (s.data.map escapeChar).flatten ++ ['"'], by simp [dumpV, dumpStr],
      by decide, by decide, by decide⟩
  | arr xs =>
    cases xs with
    | nil => exact ⟨'[', [']'], by simp [dumpV], by decide, by decide, by decide⟩
    | cons x xs =>
      exact ⟨'[', dumpElems x xs ++ [']'], by simp [dumpV], by decide, by decide, by decide⟩
  | obj ms =>
    cases ms with
    | nil => exact ⟨'\x7b', ['\x7d'], by simp [dumpV], by decide, by decide, by decide⟩
    | cons m ms =>
      exact ⟨'\x7b', dumpMembers m ms ++ ['\x7d'], by simp [dumpV],
        by decide, by decide, by decide⟩

theorem costV_pos (v : Json) : 1 ≤ costV v := by
  cases v with
  | null => simp [costV]
  | bool b => simp [costV]
  | num k => simp [costV]
  | str s => simp [costV]
  | arr xs => cases xs <;> simp [costV]
  | obj ms => cases ms <;> simp [costV]

theorem costE_pos (x : Json) (xs : List Json) : 1 ≤ costE x xs := by
  cases xs <;> simp [costE]

theorem costM_pos (m : String × Json) (ms : List (String × Json)) : 1 ≤ costM m ms := by
  obtain ⟨k, v⟩ := m
  cases ms <;> simp [costM]

/-! ### The roundtrip: parsing a serialized value recovers it -/

theorem parse_dump :
    ∀ n : Nat,
      (∀ (v : Json) (rest : List Char), costV v ≤ n → headNotDigit rest →
        parseValue n (dumpV v ++ rest) = some (v, rest))
      ∧ (∀ (x : Json) (xs : List Json) (rest : List Char), costE x xs ≤ n →
        parseElems n (dumpElems x xs ++ ']' :: rest) = some (x :: xs, rest))
      ∧ (∀ (m : String × Json) (ms : List (String × Json)) (rest : List Char),
        costM m ms ≤ n →
        parseMembers n (dumpMembers m ms ++ '\x7d' :: rest) = some (m :: ms, rest)) := by
  intro n
  induction n with
  | zero =>
    refine ⟨?_, ?_, ?_⟩
    · intro v rest hcost _
      exact absurd hcost (by have := costV_pos v; omega)
    · intro x xs rest hcost
      exact absurd hcost (by have := costE_pos x xs; omega)
    · intro m ms rest hcost
      exact absurd hcost (by have := costM_pos m ms; omega)
  | succ n ih =>
    obtain ⟨ihV, ihE, ihM⟩ := ih
    refine ⟨?_, ?_, ?_⟩
    · -- values
      intro v rest hcost hrest
      cases v with
      | null =>
        simp only [dumpV, List.cons_append, List.nil_append]
        rw [parseValue_step n 'n' _ (by decide)]
        simp
      | bool b =>
        cases b with
        | true =>
          simp only [dumpV, List.cons_append, List.nil_append]
          rw [parseValue_step n 't' _ (by decide)]
          simp
        | false =>
          simp only [dumpV, List.cons_append, List.nil_append]
          rw [parseValue_step n 'f' _ (by decide)]
          simp
      | num k =>
        have hd : dumpV (.num k) = intChars k := by simp [dumpV]
        rw [hd]
        by_cases hk : k < 0
        · have hneg : intChars k = '-' :: natChars k.natAbs := by rw [intChars, if_pos hk]
          rw [hneg, List.cons_append, parseValue_step n '-' _ (by decide)]
          rw [if_neg (by decide), if_neg (by decide), if_neg (by decide), if_neg (by decide),
            if_neg (by decide), if_neg (by decide), if_pos (by decide)]
          rw [← List.cons_append, ← hneg]
          exact parseNum_intChars k rest hrest
        · obtain ⟨c, t, hct⟩ := List.exists_cons_of_ne_nil (natChars_ne_nil k.toNat)
          have hc : isDigitC c = true := natChars_digits k.toNat c (by rw [hct]; simp)
          obtain ⟨h1, h2, h3, h4, h5, h6, h7, hws, -, -, -⟩ := isDigitC_facts hc
          have hic : intChars k = c :: t := by rw [intChars, if_neg hk, hct]
          rw [hic, List.cons_append, parseValue_step n c _ hws]
          rw [if_neg h1, if_neg h2, if_neg h3, if_neg h4, if_neg h5, if_neg h6]
          rw [if_pos (by rw [hc]; simp)]
          rw [← List.cons_append, ← hic]
          exact parseNum_intChars k rest hrest
      | str s =>
        obtain ⟨sd⟩ := s
        have hd : dumpV (.str ⟨sd⟩) = '"' :: ((sd.map escapeChar).flatten ++ ['"']) := by
          simp [dumpV, dumpStr]
        rw [hd, List.cons_append, parseValue_step n '"' _ (by decide)]
        rw [if_neg (by decide), if_neg (by decide), if_neg (by decide), if_pos (by decide)]
        rw [List.append_assoc, List.singleton_append, parseStrChars_escape sd rest]
      | arr xs =>
        cases xs with
        | nil =>
          simp only [dumpV, List.cons_append, List.nil_append]
          rw [parseValue_step n '[' _ (by decide)]
          rw [if_neg (by decide), if_neg (by decide), if_neg (by decide), if_neg (by decide),
            if_pos (by decide)]
          rw [skipWs_not_ws (by decide)]
          simp
        | cons x xs =>
          have hcostE : costE x xs ≤ n := by
            have : costV (.arr (x :: xs)) = 1 + costE x xs := by simp [costV]
            omega
          have hd : dumpV (.arr (x :: xs)) = '[' :: (dumpElems x xs ++ [']']) := by
            simp [dumpV]
          obtain ⟨c0, t0, h00, hw0, hrb0, -⟩ := dumpV_head x
          obtain ⟨t2, he2⟩ := dumpElems_shape x xs
          have hcons : dumpElems x xs ++ ']' :: rest = c0 :: (t0 ++ t2 ++ ']' :: rest) := by
            rw [he2, h00]
            simp
          rw [hd, List.cons_append, List.append_assoc, List.singleton_append,
            parseValue_step n '[' _ (by decide)]
          rw [if_neg (by decide), if_neg (by decide), if_neg (by decide), if_neg (by decide),
            if_pos (by decide)]
          rw [hcons, skipWs_not_ws hw0]
          dsimp only
          rw [if_neg hrb0, ← hcons, ihE x xs rest hcostE]
      | obj ms =>
        cases ms with
        | nil =>
          simp only [dumpV, List.cons_append, List.nil_append]
          rw [parseValue_step n '\x7b' _ (by decide)]
          rw [if_neg (by decide), if_neg (by decide), if_neg (by decide), if_neg (by decide),
            if_neg (by decide), if_pos (by decide)]
          rw [skipWs_not_ws (by decide)]
          simp
        | cons m ms =>
          have hcostM : costM m ms ≤ n := by
            have : costV (.obj (m :: ms)) = 1 + costM m ms := by simp [costV]
            omega
          have hd : dumpV (.obj (m :: ms)) = '\x7b' :: (dumpMembers m ms ++ ['\x7d']) := by
            simp [dumpV]
          obtain ⟨t2, he2⟩ := dumpMembers_shape m ms
          have hcons : dumpMembers m ms ++ '\x7d' :: rest = '"' :: (t2 ++ '\x7d' :: rest) := by
            rw [he2]
            simp
          rw [hd, List.cons_append, List.append_assoc, List.singleton_append,
            parseValue_step n '\x7b' _ (by decide)]
          rw [if_neg (by decide), if_neg (by decide), if_neg (by decide), if_neg (by decide),
            if_neg (by decide), if_pos (by decide)]
          rw [hcons, skipWs_not_ws (by decide)]
          dsimp only
          rw [if_neg (by decide), ← hcons, ihM m ms rest hcostM]
    · -- array elements
      intro x xs rest hcost
      cases xs with
      | nil =>
        have hcv : costV x ≤ n := by
          have : costE x [] = 1 + costV x := by simp [costE]
          omega
        have hd : dumpElems x [] = dumpV x := by simp [dumpElems]
        rw [hd, parseElems_step, ihV x (']' :: rest) hcv (by show isDigitC ']' = false; decide)]
        dsimp only
        rw [skipWs_not_ws (by decide)]
        dsimp only
        rw [if_neg (by decide), if_pos (by decide)]
      | cons y ys =>
        have hsplit : costV x ≤ n ∧ costE y ys ≤ n := by
          have : costE x (y :: ys) = 1 + max (costV x) (costE y ys) := by simp [costE]
          have hm := Nat.max_le.mp (show max (costV x) (costE y ys) ≤ n by omega)
          exact hm
        have hd : dumpElems x (y :: ys) = dumpV x ++ ',' :: ' ' :: dumpElems y ys := by
          simp [dumpElems]
        rw [hd, List.append_assoc, List.cons_append, parseElems_step]
        rw [show (' ' :: dumpElems y ys) ++ ']' :: rest
            = ' ' :: (dumpElems y ys ++ ']' :: rest) from by simp]
        rw [ihV x _ hsplit.1 (by show isDigitC ',' = false; decide)]
        dsimp only
        rw [skipWs_not_ws (by decide)]
        dsimp only
        rw [if_pos (by decide), parseElems_space, ihE y ys rest hsplit.2]
    · -- object members
      intro m ms rest hcost
      obtain ⟨k, v⟩ := m
      obtain ⟨kd⟩ := k
      cases ms with
      | nil =>
        have hcv : costV v ≤ n := by
          have : costM (⟨kd⟩, v) [] = 1 + costV v := by simp [costM]
          omega
        have hd : dumpMembers (⟨kd⟩, v) []
            = '"' :: ((kd.map escapeChar).flatten ++ ('"' :: ':' :: ' ' :: dumpV v)) := by
          simp [dumpMembers, dumpStr]
        rw [hd, parseMembers_step, List.cons_append, skipWs_not_ws (by decide)]
        dsimp only
        rw [if_pos (by decide)]
        rw [show ((kd.map escapeChar).flatten ++ ('"' :: ':' :: ' ' :: dumpV v)) ++ '\x7d' :: rest
            = (kd.map escapeChar).flatten ++ '"' :: (':' :: ' ' :: (dumpV v ++ '\x7d' :: rest))
          from by simp]
        rw [parseStrChars_escape kd]
        dsimp only
        rw [skipWs_not_ws (by decide)]
        dsimp only
        rw [if_pos (by decide), parseValue_space,
          ihV v ('\x7d' :: rest) hcv (by show isDigitC '\x7d' = false; decide)]
        dsimp only
        rw [skipWs_not_ws (by decide)]
        dsimp only
        rw [if_neg (by decide), if_pos (by decide)]
      | cons m2 ms2 =>
        have hsplit : costV v ≤ n ∧ costM m2 ms2 ≤ n := by
          have : costM (⟨kd⟩, v) (m2 :: ms2) = 1 + max (costV v) (costM m2 ms2) := by
            simp [costM]
          have hm := Nat.max_le.mp (show max (costV v) (costM m2 ms2) ≤ n by omega)
          exact hm
        have hd : dumpMembers (⟨kd⟩, v) (m2 :: ms2)
            = '"' :: ((kd.map escapeChar).flatten
              ++ ('"' :: ':' :: ' ' :: (dumpV v ++ ',' :: ' ' :: dumpMembers m2 ms2))) := by
          simp [dumpMembers, dumpStr]
        rw [hd, parseMembers_step, List.cons_append, skipWs_not_ws (by decide)]
        dsimp only
        rw [if_pos (by decide)]
        rw [show ((kd.map escapeChar).flatten
              ++ ('"' :: ':' :: ' ' :: (dumpV v ++ ',' :: ' ' :: dumpMembers m2 ms2)))
              ++ '\x7d' :: rest
            = (kd.map escapeChar).flatten
              ++ '"' :: (':' :: ' ' :: (dumpV v
                ++ ',' :: ' ' :: (dumpMembers m2 ms2 ++ '\x7d' :: rest)))
          from by simp]
        rw [parseStrChars_escape kd]
        dsimp only
        rw [skipWs_not_ws (by decide)]
        dsimp only
        rw [if_pos (by decide), parseValue_space,
          ihV v _ hsplit.1 (by show isDigitC ',' = false; decide)]
        dsimp only
        rw [skipWs_not_ws (by decide)]
        dsimp only
        rw [if_pos (by decide), parseMembers_space, ihM m2 ms2 rest hsplit.2]

theorem json_sizeOf_pos (v : Json) : 0 < sizeOf v := by
  cases v <;> simp

theorem intChars_ne_nil (k : Int) : intChars k ≠ [] := by
  unfold intChars
  by_cases hk : k < 0
  · rw [if_pos hk]
    simp
  · rw [if_neg hk]
    exact natChars_ne_nil _

/-- The parsing fuel needed for a serialized value is at most its length
(so `jsonLoadsChars`' fuel `length + 1` always suffices). -/
theorem cost_le_dump :
    ∀ N : Nat,
      (∀ v : Json, sizeOf v ≤ N → costV v ≤ (dumpV v).length)
      ∧ (∀ (x : Json) (xs : List Json), sizeOf x + sizeOf xs ≤ N →
        costE x xs ≤ (dumpElems x xs).length + 1)
      ∧ (∀ (m : String × Json) (ms : List (String × Json)), sizeOf m + sizeOf ms ≤ N →
        costM m ms ≤ (dumpMembers m ms).length + 1) := by
  intro N
  induction N with
  | zero =>
    refine ⟨?_, ?_, ?_⟩
    · intro v hv
      exact absurd hv (by have := json_sizeOf_pos v; omega)
    · intro x xs hx
      exact absurd hx (by have := json_sizeOf_pos x; omega)
    · intro m ms hm
      obtain ⟨k, v⟩ := m
      refine absurd hm (by simp)
  | succ N ih =>
    obtain ⟨ihV, ihE, ihM⟩ := ih
    refine ⟨?_, ?_, ?_⟩
    · intro v hv
      cases v with
      | null => simp [costV, dumpV]
      | bool b => cases b <;> simp [costV, dumpV]
      | num k =>
        have hne := intChars_ne_nil k
        have : 0 < (intChars k).length := List.length_pos.mpr hne
        simp only [costV, dumpV]
        omega
      | str s =>
        simp [costV, dumpV, dumpStr]
      | arr xs =>
        cases xs with
        | nil => simp [costV, dumpV]
        | cons x xs =>
          have hsz : sizeOf x + sizeOf xs ≤ N := by
            simp at hv
            omega
          have hE := ihE x xs hsz
          simp only [costV, dumpV, List.length_cons, List.length_append]
          simp at hE ⊢
          omega
      | obj ms =>
        cases ms with
        | nil => simp [costV, dumpV]
        | cons m ms =>
          have hsz : sizeOf m + sizeOf ms ≤ N := by
            simp at hv
            omega
          have hM := ihM m ms hsz
          simp only [costV, dumpV, List.length_cons, List.length_append]
          simp at hM ⊢
          omega
    · intro x xs hx
      cases xs with
      | nil =>
        have hV := ihV x (by simp at hx; omega)
        simp only [costE, dumpElems]
        omega
      | cons y ys =>
        have hV := ihV x (by simp at hx; have := json_sizeOf_pos y; omega)
        have hE := ihE y ys (by simp at hx; have := json_sizeOf_pos x; omega)
        have hmax : max (costV x) (costE y ys)
            ≤ (dumpV x).length + (dumpElems y ys).length + 1 :=
          Nat.max_le.mpr ⟨by omega, by omega⟩
        simp only [costE, dumpElems, List.length_append, List.length_cons]
        omega
    · intro m ms hm
      obtain ⟨k, v⟩ := m
      cases ms with
      | nil =>
        have hV := ihV v (by simp at hm; omega)
        simp only [costM, dumpMembers, List.length_append, List.length_cons]
        omega
      | cons m2 ms2 =>
        have hV := ihV v (by simp at hm; have := json_sizeOf_pos m2.2; obtain ⟨k2, v2⟩ := m2; simp at *; omega)
        have hM := ihM m2 ms2 (by simp at hm; have := json_sizeOf_pos v; omega)
        have hmax : max (costV v) (costM m2 ms2)
            ≤ (dumpV v).length + (dumpMembers m2 ms2).length + 1 :=
          Nat.max_le.mpr ⟨by omega, by omega⟩
        simp only [costM, dumpMembers, List.length_append, List.length_cons]
        omega

/-- `json.loads` inverts `json.dumps`. -/
theorem jsonLoadsChars_dumpV (v : Json) : jsonLoadsChars (dumpV v) = some v := by
  have hcost : costV v ≤ (dumpV v).length + 1 := by
    have := (cost_le_dump (sizeOf v)).1 v le_rfl
    omega
  have h := (parse_dump ((dumpV v).length + 1)).1 v [] hcost trivial
  rw [List.append_nil] at h
  unfold jsonLoadsChars
  rw [h]
  simp [skipWs]

/-! ### `extract` recovers a reserialized array (support for idempotence) -/

/-- Structural induction over `Json` through the nested lists. -/
theorem json_induction (P : Json → Prop) (hnull : P .null) (hbool : ∀ b, P (.bool b))
    (hnum : ∀ k, P (.num k)) (hstr : ∀ s, P (.str s))
    (harr : ∀ xs, (∀ x ∈ xs, P x) → P (.arr xs))
    (hobj : ∀ ms, (∀ m ∈ ms, P m.2) → P (.obj ms)) : ∀ v, P v := by
  have H : ∀ N : Nat, ∀ v : Json, sizeOf v ≤ N → P v := by
    intro N
    induction N with
    | zero =>
      intro v hv
      exact absurd hv (by have := json_sizeOf_pos v; omega)
    | succ N ih =>
      intro v hv
      cases v with
      | null => exact hnull
      | bool b => exact hbool b
      | num k => exact hnum k
      | str s => exact hstr s
      | arr xs =>
        refine harr xs (fun x hx => ih x ?_)
        have h1 := List.sizeOf_lt_of_mem hx
        have h2 : sizeOf (Json.arr xs) = 1 + sizeOf xs := by simp
        omega
      | obj ms =>
        refine hobj ms (fun m hm => ih m.2 ?_)
        have h1 := List.sizeOf_lt_of_mem hm
        have h2 : sizeOf (Json.obj ms) = 1 + sizeOf ms := by simp
        have h3 : sizeOf m.2 < sizeOf m := by
          obtain ⟨k2, v2⟩ := m
          simp
        omega
  exact fun v => H (sizeOf v) v le_rfl

theorem nl_not_mem_escapeChar (c : Char) : '\n' ∉ escapeChar c := by
  intro hmem
  unfold escapeChar at hmem
  split_ifs at hmem with h1 h2 h3 h4 h5
  · exact absurd hmem (by decide)
  · exact absurd hmem (by decide)
  · exact absurd hmem (by decide)
  · exact absurd hmem (by decide)
  · exact absurd hmem (by decide)
  · rcases List.mem_singleton.mp hmem with rfl
    exact h3 rfl

theorem nl_not_mem_dumpStr (l : List Char) : '\n' ∉ dumpStr l := by
  intro hmem
  unfold dumpStr at hmem
  rcases List.mem_cons.mp hmem with heq | hmem2
  · exact absurd heq (by decide)
  · rcases List.mem_append.mp hmem2 with h | h
    · obtain ⟨es, hes, hmem3⟩ := List.mem_flatten.mp h
      obtain ⟨c, hc, rfl⟩ := List.mem_map.mp hes
      exact nl_not_mem_escapeChar c hmem3
    · exact absurd h (by decide)

theorem nl_not_mem_natChars (n : Nat) : '\n' ∉ natChars n := by
  intro hmem
  have hd := natChars_digits n _ hmem
  obtain ⟨-, -, -, -, -, -, -, hws, -, -, -⟩ := isDigitC_facts hd
  exact absurd hws (by decide)

theorem nl_not_mem_intChars (k : Int) : '\n' ∉ intChars k := by
  intro hmem
  unfold intChars at hmem
  split_ifs at hmem with h1
  · rcases List.mem_cons.mp hmem with heq | h
    · exact absurd heq (by decide)
    · exact nl_not_mem_natChars _ h
  · exact nl_not_mem_natChars _ hmem

/-- The serializer never emits a raw newline (strings escape them; the
separators are `", "` and `": "`). -/
theorem nl_not_mem_dumpV (v : Json) : '\n' ∉ dumpV v := by
  induction v using json_induction with
  | hnull =>
    rw [show dumpV .null = ['n', 'u', 'l', 'l'] from by simp [dumpV]]
    decide
  | hbool b =>
    cases b with
    | true =>
      rw [show dumpV (.bool true) = ['t', 'r', 'u', 'e'] from by simp [dumpV]]
      decide
    | false =>
      rw [show dumpV (.bool false) = ['f', 'a', 'l', 's', 'e'] from by simp [dumpV]]
      decide
  | hnum k =>
    rw [show dumpV (.num k) = intChars k from by simp [dumpV]]
    exact nl_not_mem_intChars k
  | hstr s =>
    rw [show dumpV (.str s) = dumpStr s.data from by simp [dumpV]]
    exact nl_not_mem_dumpStr s.data
  | harr xs ih =>
    cases xs with
    | nil =>
      rw [show dumpV (.arr []) = ['[', ']'] from by simp [dumpV]]
      decide
    | cons x xs =>
      have helems : ∀ (y : Json) (ys : List Json), (∀ z ∈ y :: ys, '\n' ∉ dumpV z) →
          '\n' ∉ dumpElems y ys := by
        intro y ys
        induction ys generalizing y with
        | nil =>
          intro hall
          rw [show dumpElems y [] = dumpV y from by simp [dumpElems]]
          exact hall y (by simp)
        | cons y2 ys2 ihy =>
          intro hall
          rw [show dumpElems y (y2 :: ys2) = dumpV y ++ ',' :: ' ' :: dumpElems y2 ys2
            from by simp [dumpElems]]
          intro hmem
          rcases List.mem_append.mp hmem with h | h
          · exact hall y (by simp) h
          · rcases List.mem_cons.mp h with heq | h2
            · exact absurd heq (by decide)
            · rcases List.mem_cons.mp h2 with heq | h3
              · exact absurd heq (by decide)
              · exact ihy y2 (fun z hz => hall z (by simp at hz ⊢; tauto)) h3
      have hd : dumpV (.arr (x :: xs)) = '[' :: (dumpElems x xs ++ [']']) := by simp [dumpV]
      rw [hd]
      intro hmem
      rcases List.mem_cons.mp hmem with heq | h
      · exact absurd heq (by decide)
      · rcases List.mem_append.mp h with h2 | h2
        · exact helems x xs ih h2
        · exact absurd h2 (by decide)
  | hobj ms ih =>
    cases ms with
    | nil =>
      rw [show dumpV (.obj []) = ['\x7b', '\x7d'] from by simp [dumpV]]
      decide
    | cons m ms =>
      have hmems : ∀ (m1 : String × Json) (ms1 : List (String × Json)),
          (∀ z ∈ m1 :: ms1, '\n' ∉ dumpV z.2) → '\n' ∉ dumpMembers m1 ms1 := by
        intro m1 ms1
        induction ms1 generalizing m1 with
        | nil =>
          intro hall
          obtain ⟨k1, v1⟩ := m1
          rw [show dumpMembers (k1, v1) [] = dumpStr k1.data ++ ':' :: ' ' :: dumpV v1
            from by simp [dumpMembers]]
          intro hmem
          rcases List.mem_append.mp hmem with h | h
          · exact nl_not_mem_dumpStr k1.data h
          · rcases List.mem_cons.mp h with heq | h2
            · exact absurd heq (by decide)
            · rcases List.mem_cons.mp h2 with heq | h3
              · exact absurd heq (by decide)
              · exact hall (k1, v1) (by simp) h3
        | cons m2 ms2 ihm =>
          intro hall
          obtain ⟨k1, v1⟩ := m1
          rw [show dumpMembers (k1, v1) (m2 :: ms2)
              = dumpStr k1.data ++ ':' :: ' ' :: dumpV v1 ++ ',' :: ' ' :: dumpMembers m2 ms2
            from by simp [dumpMembers]]
          intro hmem
          rcases List.mem_append.mp hmem with h | h
          · rcases List.mem_append.mp h with h2 | h2
            · exact nl_not_mem_dumpStr k1.data h2
            · rcases List.mem_cons.mp h2 with heq | h3
              · exact absurd heq (by decide)
              · rcases List.mem_cons.mp h3 with heq | h4
                · exact absurd heq (by decide)
                · exact hall (k1, v1) (by simp) h4
          · rcases List.mem_cons.mp h with heq | h2
            · exact absurd heq (by decide)
            · rcases List.mem_cons.mp h2 with heq | h3
              · exact absurd heq (by decide)
              · exact ihm m2 (fun z hz => hall z (by simp at hz ⊢; tauto)) h3
      have hd : dumpV (.obj (m :: ms)) = '\x7b' :: (dumpMembers m ms ++ ['\x7d']) := by
        simp [dumpV]
      rw [hd]
      intro hmem
      rcases List.mem_cons.mp hmem with heq | h
      · exact absurd heq (by decide)
      · rcases List.mem_append.mp h with h2 | h2
        · exact hmems m ms ih h2
        · exact absurd h2 (by decide)

theorem dumpV_arr_shape (xs : List Json) :
    ∃ mid, dumpV (.arr xs) = '[' :: (mid ++ [']']) := by
  cases xs with
  | nil => exact ⟨[], by simp [dumpV]⟩
  | cons x xs => exact ⟨dumpElems x xs, by simp [dumpV]⟩

theorem splitLines_eq_single (cs : List Char) (h : '\n' ∉ cs) : splitLines cs = [cs] := by
  induction cs with
  | nil => rfl
  | cons c rest ih =>
    have hc : c ≠ '\n' := fun heq => h (by simp [heq])
    have hrest : '\n' ∉ rest := fun hmem => h (by simp [hmem])
    rw [splitLines, if_neg hc, ih hrest]

theorem stripLine_eq_self (cs : List Char) (hpre : ("```".data).isPrefixOf cs = false)
    (hsuf : ("```".data).isSuffixOf cs = false) : stripLine cs = cs := by
  have hpre7 : ("```json".data).isPrefixOf cs = false := by
    cases h7 : ("```json".data).isPrefixOf cs with
    | false => rfl
    | true =>
      exfalso
      have hp := List.isPrefixOf_iff_prefix.mp h7
      have hp3 : ("```".data) <+: cs :=
        List.IsPrefix.trans ⟨"json".data, rfl⟩ hp
      rw [ List.isPrefixOf_iff_prefix.mpr hp3] at hpre
      exact absurd hpre (by decide)
  unfold stripLine
  rw [hpre7, hpre]
  simp only [Bool.false_eq_true, if_false, hsuf]

/-- The fence-stripping substitution leaves any single-line text alone when
the line neither starts nor ends with a fence. -/
theorem stripFences_eq_self (cs : List Char) (hnl : '\n' ∉ cs)
    (hpre : ("```".data).isPrefixOf cs = false)
    (hsuf : ("```".data).isSuffixOf cs = false) : stripFences cs = cs := by
  unfold stripFences
  rw [splitLines_eq_single cs hnl, List.map_cons, List.map_nil,
    stripLine_eq_self cs hpre hsuf]
  rfl

theorem firstIdxOf_head (c : Char) (t : List Char) : firstIdxOf (c :: t) c = some 0 := by
  unfold firstIdxOf
  rw [List.findIdx?_cons]
  simp

theorem lastIdxOf_last (c : Char) (t : List Char) :
    lastIdxOf (t ++ [c]) c = some t.length := by
  unfold lastIdxOf
  rw [List.reverse_append]
  simp only [List.reverse_cons, List.reverse_nil, List.nil_append, List.singleton_append]
  rw [List.findIdx?_cons]
  simp

/-- `extract_json_array` applied to a reserialized array recovers exactly
that array: the serialization is a single line that is not fenced, starts at
its first `[` and ends at its last `]`, and reparses to the same value. -/
theorem extract_dumps (xs : List Json) :
    extract_json_array (dumps (.arr xs)) = .ok xs := by
  obtain ⟨mid, hshape⟩ := dumpV_arr_shape xs
  have hnl : '\n' ∉ dumpV (.arr xs) := nl_not_mem_dumpV _
  have hdata : (dumps (.arr xs)).data = dumpV (.arr xs) := rfl
  have hpre : ("```".data).isPrefixOf (dumpV (.arr xs)) = false := by
    cases h : ("```".data).isPrefixOf (dumpV (.arr xs)) with
    | false => rfl
    | true =>
      exfalso
      obtain ⟨t2, ht2⟩ := List.isPrefixOf_iff_prefix.mp h
      rw [hshape] at ht2
      have h1 : ("```".data ++ t2).head? = ('[' :: (mid ++ [']'])).head? := by rw [ht2]
      simp at h1
  have hsuf : ("```".data).isSuffixOf (dumpV (.arr xs)) = false := by
    cases h : ("```".data).isSuffixOf (dumpV (.arr xs)) with
    | false => rfl
    | true =>
      exfalso
      obtain ⟨t2, ht2⟩ := List.isSuffixOf_iff_suffix.mp h
      rw [hshape] at ht2
      have h1 : (t2 ++ "```".data).reverse.head? = ('[' :: (mid ++ [']'])).reverse.head? := by
        rw [ht2]
      simp [List.reverse_append] at h1
  have hfi : firstIdxOf ('[' :: (mid ++ [']'])) '[' = some 0 := firstIdxOf_head _ _
  have hli : lastIdxOf ('[' :: (mid ++ [']'])) ']' = some (mid.length + 1) := by
    rw [show '[' :: (mid ++ [']']) = ('[' :: mid) ++ [']'] from by simp, lastIdxOf_last]
    simp
  unfold extract_json_array
  rw [hdata, stripFences_eq_self _ hnl hpre hsuf, hshape]
  dsimp only
  rw [pyStripChars_eq_self isPySpace '[' ']' mid (by decide) (by decide), hfi, hli]
  dsimp only
  rw [List.drop_zero]
  rw [show mid.length + 1 + 1 - 0 = ('[' :: (mid ++ [']'])).length from by simp]
  rw [List.take_length, ← hshape, jsonLoadsChars_dumpV]

/-! ### Lemmas about `exMapM`, the fallback pool and the batch loop -/

theorem exMapM_ok_iff (f : α → Except ε β) :
    ∀ (l : List α) (ys : List β),
      exMapM f l = .ok ys ↔ List.Forall₂ (fun a b => f a = .ok b) l ys := by
  intro l
  induction l with
  | nil =>
    intro ys
    constructor
    · intro h
      cases ys with
      | nil => exact List.Forall₂.nil
      | cons y ys => simp [exMapM] at h
    · intro h
      cases h
      rfl
  | cons a l ih =>
    intro ys
    constructor
    · intro h
      unfold exMapM at h
      cases hfa : f a with
      | error e => rw [hfa] at h; exact absurd h (by simp)
      | ok b =>
        rw [hfa] at h
        cases hml : exMapM f l with
        | error e => rw [hml] at h; exact absurd h (by simp)
        | ok bs =>
          rw [hml] at h
          simp at h
          rw [← h]
          exact List.Forall₂.cons hfa ((ih bs).mp hml)
    · intro h
      cases h with
      | cons hab htail =>
        unfold exMapM
        rw [hab, (ih _).mpr htail]

theorem exMapM_ok_of_forall (f : α → Except ε β) (l : List α)
    (h : ∀ a ∈ l, ∃ b, f a = .ok b) : ∃ ys, exMapM f l = .ok ys := by
  induction l with
  | nil => exact ⟨[], rfl⟩
  | cons a l ih =>
    obtain ⟨b, hb⟩ := h a (by simp)
    obtain ⟨ys, hys⟩ := ih (fun a2 ha2 => h a2 (by simp [ha2]))
    refine ⟨b :: ys, ?_⟩
    unfold exMapM
    rw [hb, hys]

theorem exMapM_cons (f : α → Except ε β) (a : α) (l : List α) :
    exMapM f (a :: l) =
      match f a with
      | .error e => .error e
      | .ok b =>
        match exMapM f l with
        | .error e => .error e
        | .ok bs => .ok (b :: bs) := rfl

theorem exMapM_append (f : α → Except ε β) (l1 l2 : List α) :
    exMapM f (l1 ++ l2) =
      match exMapM f l1 with
      | .error e => .error e
      | .ok b1 =>
        match exMapM f l2 with
        | .error e => .error e
        | .ok b2 => .ok (b1 ++ b2) := by
  induction l1 with
  | nil =>
    cases h : exMapM f l2 <;> simp [exMapM, h]
  | cons a l ih =>
    rw [List.cons_append, exMapM_cons, exMapM_cons, ih]
    cases hfa : f a with
    | error e => rfl
    | ok b =>
      cases h1 : exMapM f l with
      | error e => rfl
      | ok b1 =>
        cases h2 : exMapM f l2 <;> rfl

theorem exMapM_error_mem (f : α → Except ε β) :
    ∀ (l : List α) (e : ε), exMapM f l = .error e → ∃ a ∈ l, f a = .error e := by
  intro l
  induction l with
  | nil => intro e h; exact absurd h (by simp [exMapM])
  | cons a l ih =>
    intro e h
    unfold exMapM at h
    cases hfa : f a with
    | error e2 =>
      rw [hfa] at h
      simp at h
      exact ⟨a, by simp, by rw [hfa, h]⟩
    | ok b =>
      rw [hfa] at h
      cases hml : exMapM f l with
      | error e2 =>
        rw [hml] at h
        simp at h
        obtain ⟨a2, ha2, hfa2⟩ := ih e2 hml
        exact ⟨a2, by simp [ha2], by rw [hfa2, h]⟩
      | ok bs => rw [hml] at h; exact absurd h (by simp)

theorem exMapM_map (f : β → Except ε γ) (g : α → β) (l : List α) :
    exMapM f (l.map g) = exMapM (fun a => f (g a)) l := by
  induction l with
  | nil => rfl
  | cons a l ih =>
    show exMapM f (g a :: l.map g) = _
    unfold exMapM
    rw [ih]

theorem withIdxFrom_append (l1 l2 : List α) :
    ∀ base, withIdxFrom base (l1 ++ l2)
      = withIdxFrom base l1 ++ withIdxFrom (base + l1.length) l2 := by
  induction l1 with
  | nil => intro base; simp [withIdxFrom]
  | cons a l ih =>
    intro base
    show (a, base) :: withIdxFrom (base + 1) (l ++ l2)
        = (a, base) :: (withIdxFrom (base + 1) l ++ withIdxFrom (base + (a :: l).length) l2)
    rw [ih (base + 1)]
    simp only [List.length_cons]
    rw [show base + 1 + l.length = base + (l.length + 1) from by omega]

theorem withIdxFrom_length (l : List α) : ∀ base, (withIdxFrom base l).length = l.length := by
  induction l with
  | nil => intro base; rfl
  | cons a l ih => intro base; simp [withIdxFrom, ih]

theorem withIdxFrom_getElem? (l : List α) :
    ∀ (base j : Nat), (withIdxFrom base l)[j]? = l[j]?.map (fun a => (a, base + j)) := by
  induction l with
  | nil => intro base j; simp [withIdxFrom]
  | cons a l ih =>
    intro base j
    cases j with
    | zero => simp [withIdxFrom]
    | succ j =>
      show (withIdxFrom base (a :: l))[j + 1]? = _
      unfold withIdxFrom
      rw [List.getElem?_cons_succ, ih (base + 1) j, List.getElem?_cons_succ]
      cases l[j]? <;> simp
      omega

/-- The foldl of index-keyed writes: each cell holds the value for its own
index once written, independent of write order. -/
theorem foldl_set_getElem? (f : Nat → Option String) :
    ∀ (order : List Nat) (ts : List (Option String)) (j : Nat),
      (order.foldl (fun texts idx => texts.set idx (f idx)) ts)[j]?
        = if j ∈ order ∧ j < ts.length then some (f j) else ts[j]? := by
  intro order
  induction order with
  | nil =>
    intro ts j
    simp
  | cons idx rest ih =>
    intro ts j
    show (rest.foldl _ (ts.set idx (f idx)))[j]? = _
    rw [ih (ts.set idx (f idx)) j, List.length_set]
    by_cases hjr : j ∈ rest ∧ j < ts.length
    · rw [if_pos hjr, if_pos ⟨by simp [hjr.1], hjr.2⟩]
    · rw [if_neg hjr]
      by_cases hji : j = idx
      · subst hji
        rw [List.getElem?_set]
        by_cases hlt : j < ts.length
        · rw [if_pos rfl, if_pos hlt, if_pos ⟨by simp, hlt⟩]
        · rw [if_pos rfl, if_neg hlt, if_neg (by tauto)]
          symm
          exact List.getElem?_eq_none (by omega)
      · rw [List.getElem?_set_ne (fun heq => hji heq.symm)]
        rw [if_neg ?_]
        intro ⟨hmem, hlt⟩
        rcases List.mem_cons.mp hmem with heq | hmem2
        · exact hji heq
        · exact hjr ⟨hmem2, hlt⟩

theorem foldl_set_length (f : Nat → Option String) :
    ∀ (order : List Nat) (ts : List (Option String)),
      (order.foldl (fun texts idx => texts.set idx (f idx)) ts).length = ts.length := by
  intro order
  induction order with
  | nil => intro ts; rfl
  | cons idx rest ih =>
    intro ts
    show (rest.foldl _ (ts.set idx (f idx))).length = _
    rw [ih, List.length_set]

/-- Completion order is irrelevant: for any permutation of the submission
indices, the drained pool pairs index `i` with prompt `i`'s reply. -/
theorem fallbackTexts_perm (oracle : Nat → Option String) (base n : Nat)
    (order : List Nat) (h : order.Perm (List.range n)) :
    fallbackTexts oracle base n order
      = (List.range n).map (fun i => some (textFor oracle (base + i))) := by
  apply List.ext_getElem?
  intro j
  unfold fallbackTexts
  rw [foldl_set_getElem? (fun idx => some (textFor oracle (base + idx))) order
    (List.replicate n none) j]
  rw [List.length_replicate, List.getElem?_map]
  have hmem : j ∈ order ↔ j < n := by
    rw [h.mem_iff, List.mem_range]
  by_cases hj : j < n
  · rw [if_pos ⟨hmem.mpr hj, hj⟩, List.getElem?_range hj]
    rfl
  · rw [if_neg (by tauto), List.getElem?_replicate, if_neg hj]
    rw [List.getElem?_eq_none (by simp; omega)]
    rfl

theorem batchTexts_singleOnly (oracle : Nat → Option String) (base : Nat)
    (prompts : List String) :
    batchTexts (.singleOnly oracle) base prompts
      = .ok ((List.range prompts.length).map (fun i => textFor oracle (base + i))) := by
  unfold batchTexts
  dsimp only
  rw [fallbackTexts_perm oracle base prompts.length (List.range prompts.length)
    (List.Perm.refl _)]
  rw [List.map_map]
  rfl

/-- Per-record processing at a global call index: each record is paired with
the reply of its own call. -/
def procAt (oracle : Nat → Option String) (p : Record × Nat) :
    Except PyErr PredictionRecord :=
  processRecord p.1 (textFor oracle p.2)

theorem processRecord_empty_text (rec : Record) :
    processRecord rec "" = .ok ⟨recId rec, []⟩ := rfl

theorem processRecord_pid (rec : Record) (txt : String) (p : PredictionRecord)
    (h : processRecord rec txt = .ok p) : p.payment_id = recId rec := by
  unfold processRecord at h
  cases h1 : extract_json_array txt with
  | error e => rw [h1] at h; exact absurd h (by simp)
  | ok arr =>
    rw [h1] at h
    dsimp only at h
    cases h2 : exMapM qaOfJson arr with
    | error e => rw [h2] at h; exact absurd h (by simp)
    | ok answers =>
      rw [h2] at h
      simp at h
      rw [← h]

theorem zip_range_map (oracle : Nat → Option String) (batch : List Record) :
    ∀ base, batch.zip ((List.range batch.length).map (fun i => textFor oracle (base + i)))
      = (withIdxFrom base batch).map (fun p => (p.1, textFor oracle p.2)) := by
  induction batch with
  | nil => intro base; rfl
  | cons r rs ih =>
    intro base
    rw [List.length_cons, List.range_succ_eq_map, List.map_cons, List.zip_cons_cons,
      List.map_map]
    show (r, textFor oracle (base + 0)) :: rs.zip _
      = (r, textFor oracle base) :: (withIdxFrom (base + 1) rs).map _
    rw [show base + 0 = base from by omega]
    congr 1
    rw [show ((fun i => textFor oracle (base + i)) ∘ Nat.succ)
        = fun i => textFor oracle ((base + 1) + i) from by
      funext i
      show textFor oracle (base + (i + 1)) = textFor oracle (base + 1 + i)
      rw [show base + (i + 1) = base + 1 + i from by omega]]
    exact ih (base + 1)

/-- Under the parallel fallback, one batch is exactly the per-record
processing of each (record, own-reply) pair. -/
theorem runBatch_singleOnly (few : List Json) (c : Json) (oracle : Nat → Option String)
    (base : Nat) (batch : List Record)
    (hv : ∀ r ∈ batch, ∃ s, build_prompt r few c = .ok s) :
    runBatch few c (.singleOnly oracle) base batch
      = exMapM (procAt oracle) (withIdxFrom base batch) := by
  unfold runBatch
  obtain ⟨prompts, hps⟩ := exMapM_ok_of_forall _ batch hv
  have hlen : prompts.length = batch.length :=
    (((exMapM_ok_iff _ batch prompts).mp hps).length_eq).symm
  rw [hps]
  dsimp only
  rw [batchTexts_singleOnly]
  dsimp only
  rw [hlen, zip_range_map oracle batch base, exMapM_map]
  rfl

/-- Closed form of the whole fallback dispatch loop: it is the per-record
processing of every (record, global-index) pair, in input order. -/
theorem dispatchAux_singleOnly (few : List Json) (c : Json) (oracle : Nat → Option String)
    (bs : Nat) (hbs : 0 < bs) :
    ∀ (fuel : Nat) (recs : List Record) (base : Nat), recs.length ≤ fuel →
      (∀ r ∈ recs, ∃ s, build_prompt r few c = .ok s) →
      dispatchAux few c (.singleOnly oracle) bs fuel recs base
        = exMapM (procAt oracle) (withIdxFrom base recs) := by
  intro fuel
  induction fuel with
  | zero =>
    intro recs base hlen hv
    have hnil : recs = [] := List.length_eq_zero.mp (by omega)
    subst hnil
    rfl
  | succ fuel ih =>
    intro recs base hlen hv
    cases recs with
    | nil => rfl
    | cons r rs =>
      have hsplit := List.take_append_drop bs (r :: rs)
      have hlen2 : ((r :: rs).drop bs).length ≤ fuel := by
        rw [List.length_drop]
        simp at hlen ⊢
        omega
      have hvtake : ∀ r2 ∈ (r :: rs).take bs, ∃ s, build_prompt r2 few c = .ok s :=
        fun r2 hr2 => hv r2 (List.mem_of_mem_take hr2)
      have hvdrop : ∀ r2 ∈ (r :: rs).drop bs, ∃ s, build_prompt r2 few c = .ok s :=
        fun r2 hr2 => hv r2 (List.mem_of_mem_drop hr2)
      show (match runBatch few c (.singleOnly oracle) base ((r :: rs).take bs) with
        | Except.error e => Except.error e
        | Except.ok out =>
          match dispatchAux few c (.singleOnly oracle) bs fuel ((r :: rs).drop bs)
              (base + ((r :: rs).take bs).length) with
          | Except.error e => Except.error e
          | Except.ok rest => Except.ok (out ++ rest)) = _
      rw [runBatch_singleOnly few c oracle base _ hvtake,
        ih ((r :: rs).drop bs) (base + ((r :: rs).take bs).length) hlen2 hvdrop]
      conv_rhs =>
        rw [← hsplit, withIdxFrom_append, exMapM_append]
      cases h1 : exMapM (procAt oracle) (withIdxFrom base ((r :: rs).take bs)) with
      | error e => rfl
      | ok out =>
        cases h2 : exMapM (procAt oracle)
            (withIdxFrom (base + ((r :: rs).take bs).length) ((r :: rs).drop bs)) with
        | error e => rfl
        | ok rest => rfl

theorem dispatch_singleOnly_closed (few : List Json) (c : Json)
    (oracle : Nat → Option String) (records : List Record) (bs : Nat) (hbs : bs ≠ 0)
    (hv : ∀ r ∈ records, ∃ s, build_prompt r few c = .ok s) :
    dispatch few c (.singleOnly oracle) records bs
      = exMapM (procAt oracle) (withIdxFrom 0 records) := by
  unfold dispatch
  rw [if_neg hbs]
  exact dispatchAux_singleOnly few c oracle bs (Nat.pos_of_ne_zero hbs)
    records.length records 0 le_rfl hv

/-! ### Inversion: a successful dispatch implies well-formed inputs -/

theorem exMapM_ok_forall (f : α → Except ε β) :
    ∀ (l : List α) (ys : List β), exMapM f l = .ok ys → ∀ a ∈ l, ∃ b, f a = .ok b := by
  intro l
  induction l with
  | nil => intro ys h a ha; simp at ha
  | cons a2 l ih =>
    intro ys h a ha
    rw [exMapM_cons] at h
    cases hfa : f a2 with
    | error e => rw [hfa] at h; exact absurd h (by simp)
    | ok b =>
      rw [hfa] at h
      dsimp only at h
      cases hml : exMapM f l with
      | error e => rw [hml] at h; exact absurd h (by simp)
      | ok bs =>
        rcases List.mem_cons.mp ha with rfl | ha2
        · exact ⟨b, hfa⟩
        · exact ih bs hml a ha2

theorem runBatch_ok_prompts (few : List Json) (c : Json) (b : Backend) (base : Nat)
    (batch : List Record) (out : List PredictionRecord)
    (h : runBatch few c b base batch = .ok out) :
    ∀ r ∈ batch, ∃ s, build_prompt r few c = .ok s := by
  unfold runBatch at h
  cases h1 : exMapM (fun r => build_prompt r few c) batch with
  | error e => rw [h1] at h; exact absurd h (by simp)
  | ok prompts => exact exMapM_ok_forall _ batch prompts h1

theorem dispatchAux_ok_prompts (few : List Json) (c : Json) (b : Backend) (bs : Nat) :
    ∀ (fuel : Nat) (recs : List Record) (base : Nat) (l : List PredictionRecord),
      dispatchAux few c b bs fuel recs base = .ok l →
      ∀ r ∈ recs, ∃ s, build_prompt r few c = .ok s := by
  intro fuel
  induction fuel with
  | zero =>
    intro recs base l h r hr
    cases recs with
    | nil => simp at hr
    | cons r2 rs => exact absurd h (by simp [dispatchAux])
  | succ fuel ih =>
    intro recs base l h r hr
    cases recs with
    | nil => simp at hr
    | cons r2 rs =>
      unfold dispatchAux at h
      cases h1 : runBatch few c b base ((r2 :: rs).take bs) with
      | error e => rw [h1] at h; exact absurd h (by simp)
      | ok out =>
        rw [h1] at h
        cases h2 : dispatchAux few c b bs fuel ((r2 :: rs).drop bs)
            (base + ((r2 :: rs).take bs).length) with
        | error e => rw [h2] at h; exact absurd h (by simp)
        | ok rest =>
          rw [← List.take_append_drop bs (r2 :: rs)] at hr
          rcases List.mem_append.mp hr with hr2 | hr2
          · exact runBatch_ok_prompts few c b base _ out h1 r hr2
          · exact ih _ _ rest h2 r hr2

theorem dispatch_ok_bs_ne_zero (few : List Json) (c : Json) (b : Backend)
    (records : List Record) (bs : Nat) (l : List PredictionRecord)
    (h : dispatch few c b records bs = .ok l) : bs ≠ 0 := by
  intro hbs
  unfold dispatch at h
  rw [if_pos hbs] at h
  exact absurd h (by simp)

theorem dispatch_ok_prompts (few : List Json) (c : Json) (b : Backend)
    (records : List Record) (bs : Nat) (l : List PredictionRecord)
    (h : dispatch few c b records bs = .ok l) :
    ∀ r ∈ records, ∃ s, build_prompt r few c = .ok s := by
  have hbs := dispatch_ok_bs_ne_zero few c b records bs l h
  unfold dispatch at h
  rw [if_neg hbs] at h
  exact dispatchAux_ok_prompts few c b bs records.length records 0 l h

theorem except_isOk_iff (e : Except ε β) : e.isOk = true ↔ ∃ b, e = .ok b := by
  cases e <;> simp [Except.isOk, Except.toBool]

theorem alookup_cons (k1 : String) (v1 : Json) (rest : List (String × Json)) (key : String) :
    alookup ((k1, v1) :: rest) key = if k1 = key then some v1 else alookup rest key := rfl

theorem alookup_append (l1 l2 : List (String × Json)) (k : String) :
    alookup (l1 ++ l2) k =
      match alookup l1 k with
      | some v => some v
      | none => alookup l2 k := by
  induction l1 with
  | nil => rfl
  | cons kv l ih =>
    obtain ⟨k1, v1⟩ := kv
    rw [List.cons_append, alookup_cons, alookup_cons]
    by_cases hk : k1 = k
    · rw [if_pos hk, if_pos hk]
    · rw [if_neg hk, if_neg hk, ih]

theorem alookup_append_none (kvs : List (String × Json)) (k : String) (v : Json)
    (h : alookup kvs k = none) : alookup (kvs ++ [(k, v)]) k = some v := by
  rw [alookup_append, h]
  show (if k = k then some v else alookup [] k) = some v
  rw [if_pos rfl]

theorem alookup_append_other (kvs : List (String × Json)) (k k2 : String) (v : Json)
    (h : k2 ≠ k) : alookup (kvs ++ [(k2, v)]) k = alookup kvs k := by
  rw [alookup_append]
  cases h1 : alookup kvs k with
  | some v2 => rfl
  | none =>
    show (if k2 = k then some v else alookup [] k) = none
    rw [if_neg h]
    rfl

/-- The structural validity of a few-shot exemplar that `build_prompt`
relies on: a dict with `payment` and `qa_pairs` keys. -/
def validExemplar (ex : Json) : Bool :=
  match ex with
  | .obj kvs => (alookup kvs "payment").isSome && (alookup kvs "qa_pairs").isSome
  | _ => false

theorem renderExemplar_ok_of_valid (c ex : Json) (h : validExemplar ex = true) :
    ∃ s, renderExemplar c ex = .ok s := by
  unfold validExemplar at h
  cases ex with
  | obj kvs =>
    simp at h
    obtain ⟨⟨p, hp⟩, ⟨q, hq⟩⟩ :
        (∃ p, alookup kvs "payment" = some p) ∧ ∃ q, alookup kvs "qa_pairs" = some q := by
      rcases h with ⟨h1, h2⟩
      exact ⟨Option.isSome_iff_exists.mp h1, Option.isSome_iff_exists.mp h2⟩
    unfold renderExemplar exGet exIndex
    dsimp only
    rw [hp]
    dsimp only
    rw [hq]
    exact ⟨_, rfl⟩
  | null => simp at h
  | bool b => simp at h
  | num n => simp at h
  | str s => simp at h
  | arr xs => simp at h

theorem exGet_error_shape (ex : Json) (key : String) (e : PyErr)
    (h : exGet ex key = .error e) : e = .attributeError := by
  cases ex <;> unfold exGet at h <;> simp at h <;> exact h.symm

theorem exIndex_error_shape (ex : Json) (key : String) (e : PyErr)
    (h : exIndex ex key = .error e) : e = .typeError ∨ e = .keyError key := by
  cases ex with
  | obj kvs =>
    unfold exIndex at h
    dsimp only at h
    cases h2 : alookup kvs key with
    | some v => rw [h2] at h; exact absurd h (by simp)
    | none => rw [h2] at h; simp at h; exact Or.inr h.symm
  | null => unfold exIndex at h; simp at h; exact Or.inl h.symm
  | bool b => unfold exIndex at h; simp at h; exact Or.inl h.symm
  | num n => unfold exIndex at h; simp at h; exact Or.inl h.symm
  | str s => unfold exIndex at h; simp at h; exact Or.inl h.symm
  | arr xs => unfold exIndex at h; simp at h; exact Or.inl h.symm

theorem renderExemplar_error_shape (c ex : Json) (e : PyErr)
    (h : renderExemplar c ex = .error e) :
    e = .attributeError ∨ e = .typeError ∨ ∃ k, e = .keyError k := by
  unfold renderExemplar at h
  cases hg : exGet ex "controls" with
  | error e2 =>
    rw [hg] at h
    simp at h
    rw [← h, exGet_error_shape ex "controls" e2 hg]
    simp
  | ok opt =>
    rw [hg] at h
    dsimp only at h
    cases hp : exIndex ex "payment" with
    | error e2 =>
      rw [hp] at h
      simp at h
      rcases exIndex_error_shape ex "payment" e2 hp with ht | hk
      · rw [← h, ht]; simp
      · rw [← h, hk]; exact Or.inr (Or.inr ⟨"payment", rfl⟩)
    | ok payment =>
      rw [hp] at h
      dsimp only at h
      cases hq : exIndex ex "qa_pairs" with
      | error e2 =>
        rw [hq] at h
        simp at h
        rcases exIndex_error_shape ex "qa_pairs" e2 hq with ht | hk
        · rw [← h, ht]; simp
        · rw [← h, hk]; exact Or.inr (Or.inr ⟨"qa_pairs", rfl⟩)
      | ok qaPairs =>
        rw [hq] at h
        exact absurd h (by simp)

theorem build_prompt_error_shape (r : Record) (few : List Json) (c : Json) (e : PyErr)
    (h : build_prompt r few c = .error e) :
    e = .attributeError ∨ e = .typeError ∨ ∃ k, e = .keyError k := by
  unfold build_prompt at h
  by_cases hemp : few.isEmpty
  · rw [if_pos hemp] at h
    dsimp only at h
    cases h2 : alookup r "questions" with
    | none =>
      rw [h2] at h
      simp at h
      exact Or.inr (Or.inr ⟨"questions", h.symm⟩)
    | some q => rw [h2] at h; exact absurd h (by simp)
  · rw [if_neg hemp] at h
    cases hex : exMapM (renderExemplar c) few with
    | error e2 =>
      rw [hex] at h
      simp at h
      obtain ⟨ex, hmem, hrend⟩ := exMapM_error_mem _ few e2 hex
      rw [← h]
      exact renderExemplar_error_shape c ex e2 hrend
    | ok blocks =>
      rw [hex] at h
      dsimp only at h
      cases h2 : alookup r "questions" with
      | none =>
        rw [h2] at h
        simp at h
        exact Or.inr (Or.inr ⟨"questions", h.symm⟩)
      | some q => rw [h2] at h; exact absurd h (by simp)

theorem extract_error_shape (txt : String) (e : PyErr)
    (h : extract_json_array txt = .error e) : e = .jsonDecode := by
  unfold extract_json_array at h
  dsimp only at h
  cases h1 : firstIdxOf (pyStripChars isPySpace (stripFences txt.data)) '[' with
  | none => rw [h1] at h; exact absurd h (by simp)
  | some s =>
    cases h2 : lastIdxOf (pyStripChars isPySpace (stripFences txt.data)) ']' with
    | none => rw [h1, h2] at h; exact absurd h (by simp)
    | some en =>
      rw [h1, h2] at h
      dsimp only at h
      cases h3 : jsonLoadsChars (((pyStripChars isPySpace (stripFences txt.data)).drop s).take
          (en + 1 - s)) with
      | none => rw [h3] at h; simp at h; exact h.symm
      | some v =>
        rw [h3] at h
        cases v <;> simp at h <;> exact h.symm

theorem qaOfJson_error_shape (qa : Json) (e : PyErr) (h : qaOfJson qa = .error e) :
    e = .attributeError := by
  cases qa with
  | obj kvs =>
    unfold qaOfJson at h
    dsimp only at h
    cases hq : (alookup kvs "question").getD (.str "") <;>
      cases ha : (alookup kvs "answer").getD (.str "") <;>
        rw [hq, ha] at h <;> simp at h <;> exact h.symm
  | null => unfold qaOfJson at h; simp at h; exact h.symm
  | bool b => unfold qaOfJson at h; simp at h; exact h.symm
  | num n => unfold qaOfJson at h; simp at h; exact h.symm
  | str s => unfold qaOfJson at h; simp at h; exact h.symm
  | arr xs => unfold qaOfJson at h; simp at h; exact h.symm

theorem processRecord_no_transport (rec : Record) (txt : String) (msg : String) :
    processRecord rec txt ≠ .error (.transport msg) := by
  intro h
  unfold processRecord at h
  cases h1 : extract_json_array txt with
  | error e =>
    rw [h1] at h
    simp at h
    have := extract_error_shape txt e h1
    rw [this] at h
    exact absurd h (by simp)
  | ok arr =>
    rw [h1] at h
    dsimp only at h
    cases h2 : exMapM qaOfJson arr with
    | error e =>
      rw [h2] at h
      simp at h
      obtain ⟨qa, hmem, hqa⟩ := exMapM_error_mem _ arr e h2
      have := qaOfJson_error_shape qa e hqa
      rw [this] at h
      exact absurd h (by simp)
    | ok answers => rw [h2] at h; exact absurd h (by simp)

theorem runBatch_no_transport (few : List Json) (c : Json) (oracle : Nat → Option String)
    (base : Nat) (batch : List Record) (msg : String) :
    runBatch few c (.singleOnly oracle) base batch ≠ .error (.transport msg) := by
  intro h
  unfold runBatch at h
  cases h1 : exMapM (fun r => build_prompt r few c) batch with
  | error e =>
    rw [h1] at h
    simp at h
    obtain ⟨r, -, hr⟩ := exMapM_error_mem _ _ _ h1
    rw [h] at hr
    rcases build_prompt_error_shape r few c _ hr with h2 | h2 | ⟨k, h2⟩ <;> simp at h2
  | ok prompts =>
    rw [h1] at h
    dsimp only at h
    rw [batchTexts_singleOnly] at h
    dsimp only at h
    cases h2 : exMapM (fun rt => processRecord rt.1 rt.2)
        (batch.zip ((List.range prompts.length).map (fun i => textFor oracle (base + i)))) with
    | error e =>
      rw [h2] at h
      simp at h
      obtain ⟨rt, -, hrt⟩ := exMapM_error_mem _ _ _ h2
      rw [h] at hrt
      exact processRecord_no_transport rt.1 rt.2 msg hrt
    | ok out => rw [h2] at h; exact absurd h (by simp)

theorem dispatchAux_no_transport (few : List Json) (c : Json) (oracle : Nat → Option String)
    (bs : Nat) :
    ∀ (fuel : Nat) (recs : List Record) (base : Nat) (msg : String),
      dispatchAux few c (.singleOnly oracle) bs fuel recs base
        ≠ .error (.transport msg) := by
  intro fuel
  induction fuel with
  | zero =>
    intro recs base msg h
    cases recs with
    | nil => exact absurd h (by simp [dispatchAux])
    | cons r rs => simp [dispatchAux] at h
  | succ fuel ih =>
    intro recs base msg h
    cases recs with
    | nil => exact absurd h (by simp [dispatchAux])
    | cons r rs =>
      unfold dispatchAux at h
      cases h1 : runBatch few c (.singleOnly oracle) base ((r :: rs).take bs) with
      | error e =>
        rw [h1] at h
        simp at h
        rw [h] at h1
        exact runBatch_no_transport few c oracle base _ msg h1
      | ok out =>
        rw [h1] at h
        dsimp only at h
        cases h2 : dispatchAux few c (.singleOnly oracle) bs fuel ((r :: rs).drop bs)
            (base + ((r :: rs).take bs).length) with
        | error e =>
          rw [h2] at h
          simp at h
          rw [h] at h2
          exact ih _ _ msg h2
        | ok rest => rw [h2] at h; exact absurd h (by simp)

theorem build_prompt_ok (record : Record) (few : List Json) (c : Json)
    (hq : (alookup record "questions").isSome = true)
    (hex : ∀ ex ∈ few, validExemplar ex = true) :
    ∃ s, build_prompt record few c = .ok s := by
  obtain ⟨qs, hqs⟩ := Option.isSome_iff_exists.mp hq
  unfold build_prompt
  by_cases hemp : few.isEmpty
  · rw [if_pos hemp]
    dsimp only
    rw [hqs]
    exact ⟨_, rfl⟩
  · rw [if_neg hemp]
    obtain ⟨blocks, hb⟩ := exMapM_ok_of_forall _ few
      (fun ex hx => renderExemplar_ok_of_valid c ex (hex ex hx))
    rw [hb]
    dsimp only
    rw [hqs]
    exact ⟨_, rfl⟩

theorem build_prompt_missing_questions (record : Record) (few : List Json) (c : Json)
    (hq : alookup record "questions" = none)
    (hex : ∀ ex ∈ few, validExemplar ex = true) :
    build_prompt record few c = .error (.keyError "questions") := by
  unfold build_prompt
  by_cases hemp : few.isEmpty
  · rw [if_pos hemp]
    dsimp only
    rw [hq]
  · rw [if_neg hemp]
    obtain ⟨blocks, hb⟩ := exMapM_ok_of_forall _ few
      (fun ex hx => renderExemplar_ok_of_valid c ex (hex ex hx))
    rw [hb]
    dsimp only
    rw [hq]

theorem build_prompt_controls_fallback (record : Record) (few1 few2 : List Json) (c : Json)
    (kvs : List (String × Json)) (hnone : alookup kvs "controls" = none) :
    build_prompt record (few1 ++ .obj kvs :: few2) c
      = build_prompt record (few1 ++ .obj (kvs ++ [("controls", c)]) :: few2) c := by
  have hrend : renderExemplar c (.obj kvs)
      = renderExemplar c (.obj (kvs ++ [("controls", c)])) := by
    unfold renderExemplar exGet exIndex
    dsimp only
    rw [alookup_append_none kvs "controls" c hnone, hnone,
      alookup_append_other kvs "payment" "controls" c (by decide),
      alookup_append_other kvs "qa_pairs" "controls" c (by decide)]
    rfl
  have hmap : exMapM (renderExemplar c) (few1 ++ .obj kvs :: few2)
      = exMapM (renderExemplar c) (few1 ++ .obj (kvs ++ [("controls", c)]) :: few2) := by
    rw [exMapM_append, exMapM_append, exMapM_cons, exMapM_cons, hrend]
  unfold build_prompt
  rw [if_neg (by simp), if_neg (by simp), hmap]

theorem forall₂_proc_pid (oracle : Nat → Option String) :
    ∀ (L : List (Record × Nat)) (l : List PredictionRecord),
      List.Forall₂ (fun p pr => procAt oracle p = .ok pr) L l →
      l.map (fun pr => pr.payment_id) = L.map (fun p => recId p.1) := by
  intro L l hf
  induction hf with
  | nil => rfl
  | cons hab ht ih =>
    rw [List.map_cons, List.map_cons, ih, processRecord_pid _ _ _ hab]

theorem withIdxFrom_map_fst (g : Record → Json) :
    ∀ (l : List Record) (base : Nat),
      (withIdxFrom base l).map (fun p => g p.1) = l.map g := by
  intro l
  induction l with
  | nil => intro base; rfl
  | cons r rs ih =>
    intro base
    show (g r) :: (withIdxFrom (base + 1) rs).map (fun p => g p.1) = g r :: rs.map g
    rw [ih (base + 1)]

theorem withIdxFrom_get (l : List Record) (base j : Nat)
    (h1 : j < (withIdxFrom base l).length) (h2 : j < l.length) :
    (withIdxFrom base l).get ⟨j, h1⟩ = (l.get ⟨j, h2⟩, base + j) := by
  have ha := withIdxFrom_getElem? l base j
  rw [List.getElem?_eq_getElem h1, List.getElem?_eq_getElem h2] at ha
  simp at ha
  exact ha

theorem loadLines_upToBad :
    ∀ (pre : List String) (js : List Json) (bad : String) (post : List String),
      omapM jsonLoads pre = some js → jsonLoads bad = none →
      loadLines (pre ++ bad :: post) = js := by
  intro pre
  induction pre with
  | nil =>
    intro js bad post hpre hbad
    simp [omapM] at hpre
    rw [hpre, List.nil_append]
    show loadLines (bad :: post) = []
    unfold loadLines
    rw [hbad]
  | cons l ls ih =>
    intro js bad post hpre hbad
    unfold omapM at hpre
    cases hl : jsonLoads l with
    | none => rw [hl] at hpre; exact absurd hpre (by simp)
    | some j =>
      rw [hl] at hpre
      cases hls : omapM jsonLoads ls with
      | none => rw [hls] at hpre; exact absurd hpre (by simp)
      | some js2 =>
        rw [hls] at hpre
        simp at hpre
        rw [List.cons_append]
        show loadLines (l :: (ls ++ bad :: post)) = js
        unfold loadLines
        rw [hl, ih js2 bad post hls hbad, ← hpre]

/-! ### Witness fixtures -/

/-- A structurally valid input record with id `"A"`. -/
def recWA : Record := [("payment_id", Json.str "A"), ("questions", Json.arr [Json.str "Q1"])]

/-- A structurally valid input record with id `"B"`. -/
def recWB : Record := [("payment_id", Json.str "B"), ("questions", Json.arr [Json.str "Q1"])]

/-- A reply oracle: call 0 answers, every later call raises. -/
def oracleW : Nat → Option String
  | 0 => some "[\x7b\"question\": \"Q1\", \"answer\": \"yes\"\x7d]"
  | _ => none

/-- A reply oracle whose every call returns the empty JSON array. -/
def oracleEmptyW : Nat → Option String := fun _ => some "[]"

/-- A structurally valid few-shot exemplar. -/
def exemplarW : Json := Json.obj [("payment", Json.obj []), ("qa_pairs", Json.arr [])]

/-- A backend whose every per-prompt call raises. -/
def backendW : Backend := .singleOnly (fun _ => none)

/-! ### The claims -/

/-- C2, counterexample: the claim says `extract` returns the empty sequence
when the substring between the first `[` and the last `]` fails to parse;
on `"[x]"` the code instead lets `json.loads` raise (`JSONDecodeError`),
modelled as `.error .jsonDecode`, not `.ok []`. -/
theorem claim_C2_counterexample :
    extract_json_array "[x]" = .error .jsonDecode := rfl

/-- C2 (amended): `extract_json_array` returns the empty sequence exactly
when the cleaned text lacks a `[` or a `]` (empty string and bracketless
prose included); when a bracket pair exists but the enclosed slice fails to
parse, the parse error propagates to the caller instead of yielding `[]`. -/
theorem claim_C2_extract_behaviour (text : String) :
    ((firstIdxOf (pyStripChars isPySpace (stripFences text.data)) '[' = none
        ∨ lastIdxOf (pyStripChars isPySpace (stripFences text.data)) ']' = none) →
      extract_json_array text = .ok [])
    ∧ (∀ s e, firstIdxOf (pyStripChars isPySpace (stripFences text.data)) '[' = some s →
        lastIdxOf (pyStripChars isPySpace (stripFences text.data)) ']' = some e →
        jsonLoadsChars (((pyStripChars isPySpace (stripFences text.data)).drop s).take
          (e + 1 - s)) = none →
        extract_json_array text = .error .jsonDecode) := by
  constructor
  · intro h
    unfold extract_json_array
    dsimp only
    rcases h with h1 | h1
    · cases h2 : lastIdxOf (pyStripChars isPySpace (stripFences text.data)) ']' <;>
        rw [h1] <;> rfl
    · cases h2 : firstIdxOf (pyStripChars isPySpace (stripFences text.data)) '[' <;>
        rw [h1] <;> rfl
  · intro s e h1 h2 h3
    unfold extract_json_array
    dsimp only
    rw [h1, h2]
    dsimp only
    rw [h3]

/-- Witness for C2: a bracketless text yields `[]`, and a malformed
bracketed text yields the propagated decode error. -/
theorem claim_C2_witness :
    extract_json_array "no json here" = .ok []
    ∧ extract_json_array "[x]" = .error .jsonDecode :=
  ⟨(claim_C2_extract_behaviour "no json here").1 (Or.inl rfl),
    (claim_C2_extract_behaviour "[x]").2 0 2 rfl rfl rfl⟩

/-- C3, counterexample: the claim says a single layer of surrounding quote
characters is trimmed, so `'yes'` (single-quoted) normalizes to `"Yes"`;
the code strips only double quotes (`.strip('"')`), so `'yes'` falls
through to the default. -/
theorem claim_C3_counterexample :
    normalize_answer "'yes'" = "Not Applicable" := rfl

/-- C3 (amended): `normalize_answer` is total into
`{Yes, No, Not Applicable}`, case-insensitive, and trims whitespace and any
number of surrounding double-quote characters — but not single quotes:
`"YES"` → Yes, `" No "` → No, `""yes""` (double-quoted) → Yes, while
`'yes'` (single-quoted) and every other non-matching input (including the
empty string) map to Not Applicable. -/
theorem claim_C3_normalize_total :
    (∀ s : String, normalize_answer s = "Yes" ∨ normalize_answer s = "No"
      ∨ normalize_answer s = "Not Applicable")
    ∧ normalize_answer "YES" = "Yes"
    ∧ normalize_answer " No " = "No"
    ∧ normalize_answer "not applicable" = "Not Applicable"
    ∧ normalize_answer "\"yes\"" = "Yes"
    ∧ normalize_answer "\"\"YES\"\"" = "Yes"
    ∧ normalize_answer "'yes'" = "Not Applicable"
    ∧ normalize_answer "" = "Not Applicable" := by
  refine ⟨?_, rfl, rfl, rfl, rfl, rfl, rfl, rfl⟩
  intro s
  unfold normalize_answer
  dsimp only
  split_ifs <;> simp

/-- C6: within a parallel-fallback batch, replies are assigned by the index
captured at submission time, so the drained `texts` sequence is the same
for every completion order — entry `i` is prompt `i`'s reply (or the empty
text for a failed call). -/
theorem claim_C6_completion_order_irrelevant (oracle : Nat → Option String)
    (base n : Nat) (order : List Nat) (h : order.Perm (List.range n)) :
    fallbackTexts oracle base n order
      = (List.range n).map (fun i => some (textFor oracle (base + i))) :=
  fallbackTexts_perm oracle base n order h

/-- Witness for C6: completion order `[1, 0]` of a two-prompt batch. -/
theorem claim_C6_witness :
    ([1, 0] : List Nat).Perm (List.range 2)
    ∧ fallbackTexts oracleW 0 2 [1, 0]
      = (List.range 2).map (fun i => some (textFor oracleW (0 + i))) :=
  ⟨by decide, claim_C6_completion_order_irrelevant oracleW 0 2 [1, 0] (by decide)⟩

/-- C8: the few-shot loader never fails the run — a missing store file
yields the empty sequence, and a malformed line aborts the file-level load
at that line, returning exactly the exemplars parsed before it. -/
theorem claim_C8_loader_tolerant (pre : List String) (js : List Json) (bad : String)
    (post : List String) (hpre : omapM jsonLoads pre = some js)
    (hbad : jsonLoads bad = none) :
    load_jsonl none = [] ∧ load_jsonl (some (pre ++ bad :: post)) = js :=
  ⟨rfl, loadLines_upToBad pre js bad post hpre hbad⟩

/-- Witness for C8: lines `1`, `x`, `2` load as just `[1]`. -/
theorem claim_C8_witness :
    load_jsonl none = [] ∧ load_jsonl (some (["1"] ++ "x" :: ["2"])) = [Json.num 1] :=
  claim_C8_loader_tolerant ["1"] [Json.num 1] "x" ["2"] rfl rfl

/-- C9: `extract` is idempotent on well-formed input — when extraction
recovers an array from a text, serializing that array (`json.dumps`) and
extracting again yields the same array. -/
theorem claim_C9_extract_idempotent (text : String) (xs : List Json)
    (_h : extract_json_array text = .ok xs) :
    extract_json_array (dumps (.arr xs)) = .ok xs :=
  extract_dumps xs

/-- Witness for C9 at the text `"[1, 2]"`. -/
theorem claim_C9_witness :
    extract_json_array "[1, 2]" = .ok [Json.num 1, Json.num 2]
    ∧ extract_json_array (dumps (.arr [Json.num 1, Json.num 2]))
      = .ok [Json.num 1, Json.num 2] :=
  ⟨rfl, claim_C9_extract_idempotent "[1, 2]" [Json.num 1, Json.num 2] rfl⟩

/-- C10: with no records and `generation.batch_size` unset, the default
batch size is `len(records) = 0` and `range(0, 0, 0)` raises `ValueError`
instead of completing with empty output; an explicitly configured
`batch_size ≥ 1` completes with an empty output stream. -/
theorem claim_C10_empty_records_default_batch :
    (∀ (few_shots : List Json) (controls : Json) (b : Backend),
      dispatchDefault few_shots controls b [] = .error .valueError)
    ∧ (∀ (few_shots : List Json) (controls : Json) (b : Backend) (bs : Nat), 0 < bs →
      dispatch few_shots controls b [] bs = .ok []) := by
  constructor
  · intro few c b
    rfl
  · intro few c b bs hbs
    unfold dispatch
    rw [if_neg (by omega)]
    rfl

/-- Witness for C10 at a concrete backend and `batch_size = 1`. -/
theorem claim_C10_witness :
    dispatchDefault [] (Json.obj []) backendW [] = .error .valueError
    ∧ dispatch [] (Json.obj []) backendW [] 1 = .ok [] :=
  ⟨claim_C10_empty_records_default_batch.1 [] (Json.obj []) backendW,
    claim_C10_empty_records_default_batch.2 [] (Json.obj []) backendW 1 (by decide)⟩

/-- C1, counterexample: the claim promises exactly N PredictionRecords for
every input regardless of call failures, but a record whose call SUCCEEDS
with the reply `"[x]"` makes `json.loads` raise inside
`extract_json_array`, aborting the run with zero output records (N = 1
here). -/
theorem claim_C1_counterexample :
    dispatch [] (Json.obj []) (.singleOnly (fun _ => some "[x]"))
      [[("payment_id", Json.str "A"), ("questions", Json.arr [])]] 1
      = .error .jsonDecode := rfl

/-- C1 (amended): for records carrying a `questions` field and every
batch_size in `[1, N]`, and provided each successful reply processes
cleanly (its bracket slice parses into an array of string-valued QA dicts —
otherwise the run aborts, see the counterexample), the fallback dispatch
produces exactly N PredictionRecords, one per input record in order, each
carrying that record's identifier; a record whose call failed yields an
empty QAPair sequence. -/
theorem claim_C1_dispatch_invariant (few_shots : List Json) (controls : Json)
    (oracle : Nat → Option String) (records : List Record) (batch_size : Nat)
    (hbs1 : 1 ≤ batch_size) (hbsN : batch_size ≤ records.length)
    (hv : ∀ r ∈ records, (build_prompt r few_shots controls).isOk = true)
    (hproc : ∀ p ∈ withIdxFrom 0 records, (procAt oracle p).isOk = true) :
    ∃ l, dispatch few_shots controls (.singleOnly oracle) records batch_size = .ok l
      ∧ l.length = records.length
      ∧ l.map (fun pr => pr.payment_id) = records.map recId
      ∧ (∀ j q, oracle j = none → l[j]? = some q → q.answers = []) := by
  have hv2 : ∀ r ∈ records, ∃ s, build_prompt r few_shots controls = .ok s :=
    fun r hr => (except_isOk_iff _).mp (hv r hr)
  have hcf := dispatch_singleOnly_closed few_shots controls oracle records batch_size
    (by omega) hv2
  obtain ⟨l, hl⟩ := exMapM_ok_of_forall (procAt oracle) (withIdxFrom 0 records)
    (fun p hp => (except_isOk_iff _).mp (hproc p hp))
  have hf := (exMapM_ok_iff _ _ l).mp hl
  have hlen : l.length = records.length := by
    have hle := hf.length_eq
    rw [withIdxFrom_length] at hle
    omega
  refine ⟨l, by rw [hcf, hl], hlen, ?_, ?_⟩
  · rw [forall₂_proc_pid oracle _ l hf, withIdxFrom_map_fst recId records 0]
  · intro j q hnone hsome
    obtain ⟨hj, hlj⟩ := List.getElem?_eq_some_iff.mp hsome
    have hjr : j < records.length := by omega
    have hjw : j < (withIdxFrom 0 records).length := by rw [withIdxFrom_length]; omega
    obtain ⟨hlenf, hget⟩ := List.forall₂_iff_get.mp hf
    have hgj := hget j hjw (by omega)
    rw [withIdxFrom_get records 0 j hjw hjr] at hgj
    unfold procAt at hgj
    dsimp only at hgj
    rw [show textFor oracle (0 + j) = "" from by
      unfold textFor
      rw [show 0 + j = j from by omega, hnone]
      rfl] at hgj
    rw [processRecord_empty_text] at hgj
    have hq : q = ⟨recId (records.get ⟨j, hjr⟩), []⟩ := by
      rw [← hlj]
      show l.get ⟨j, hj⟩ = _
      exact (Except.ok.inj hgj).symm
    rw [hq]

/-- Witness for C1 with two records, batch_size 2, and a failing second
call. -/
theorem claim_C1_witness :
    ∃ l, dispatch [] (Json.obj []) (.singleOnly oracleW) [recWA, recWB] 2 = .ok l
      ∧ l.length = ([recWA, recWB] : List Record).length
      ∧ l.map (fun pr => pr.payment_id) = ([recWA, recWB] : List Record).map recId
      ∧ (∀ j q, oracleW j = none → l[j]? = some q → q.answers = []) :=
  claim_C1_dispatch_invariant [] (Json.obj []) oracleW [recWA, recWB] 2
    (by decide) (by decide) (by decide) (by decide)

/-- C4: in the parallel-fallback path, making one record's call fail (its
error is swallowed and its reply treated as empty text) degrades only that
record to an empty QAPair sequence, with its identifier intact, and leaves
every other record's PredictionRecord unchanged. -/
theorem claim_C4_per_call_failure_isolated (few_shots : List Json) (controls : Json)
    (oracle : Nat → Option String) (records : List Record) (batch_size i : Nat)
    (l : List PredictionRecord)
    (h : dispatch few_shots controls (.singleOnly oracle) records batch_size = .ok l) :
    ∃ l', dispatch few_shots controls
        (.singleOnly (fun j => if j = i then none else oracle j)) records batch_size
        = .ok l'
      ∧ l'.length = l.length
      ∧ (∀ j, j ≠ i → l'[j]? = l[j]?)
      ∧ (∀ q, l[i]? = some q → l'[i]? = some ⟨q.payment_id, []⟩) := by
  have hbs := dispatch_ok_bs_ne_zero _ _ _ _ _ _ h
  have hv := dispatch_ok_prompts _ _ _ _ _ _ h
  have hcf := dispatch_singleOnly_closed few_shots controls oracle records batch_size hbs hv
  rw [hcf] at h
  have hf := (exMapM_ok_iff _ _ l).mp h
  obtain ⟨hlenf, hget⟩ := List.forall₂_iff_get.mp hf
  have hlen : l.length = records.length := by rw [withIdxFrom_length] at hlenf; omega
  have hcf2 := dispatch_singleOnly_closed few_shots controls
    (fun j => if j = i then none else oracle j) records batch_size hbs hv
  refine ⟨List.ofFn (fun j : Fin l.length =>
      if j.1 = i then ⟨(l.get j).payment_id, []⟩ else l.get j), ?_, ?_, ?_, ?_⟩
  · rw [hcf2]
    refine (exMapM_ok_iff _ _ _).mpr ?_
    rw [List.forall₂_iff_get]
    constructor
    · rw [withIdxFrom_length, List.length_ofFn]
      omega
    · intro j hj1 hj2
      have hjr : j < records.length := by rw [withIdxFrom_length] at hj1; omega
      have hjl : j < l.length := by omega
      rw [withIdxFrom_get records 0 j hj1 hjr]
      have hofn : (List.ofFn (fun j : Fin l.length =>
          if j.1 = i then (⟨(l.get j).payment_id, []⟩ : PredictionRecord) else l.get j)).get
            ⟨j, hj2⟩
          = if j = i then ⟨(l.get ⟨j, hjl⟩).payment_id, []⟩ else l.get ⟨j, hjl⟩ := by
        rw [List.get_ofFn]
        rfl
      rw [hofn]
      have horig := hget j hj1 (by omega)
      rw [withIdxFrom_get records 0 j hj1 hjr] at horig
      unfold procAt at horig ⊢
      dsimp only at horig ⊢
      by_cases hji : j = i
      · rw [if_pos hji]
        rw [show textFor (fun j2 => if j2 = i then none else oracle j2) (0 + j) = "" from by
          unfold textFor
          rw [show 0 + j = j from by omega]
          show (Option.getD (if j = i then none else oracle j) "") = ""
          rw [if_pos hji]
          rfl]
        rw [processRecord_empty_text]
        have hpid := processRecord_pid _ _ _ horig
        rw [hpid]
      · rw [if_neg hji]
        rw [show textFor (fun j2 => if j2 = i then none else oracle j2) (0 + j)
            = textFor oracle (0 + j) from by
          unfold textFor
          rw [show 0 + j = j from by omega]
          show (Option.getD (if j = i then none else oracle j) "") = Option.getD (oracle j) ""
          rw [if_neg hji]]
        exact horig
  · rw [List.length_ofFn]
  · intro j hji
    rw [List.getElem?_ofFn]
    unfold List.ofFnNthVal
    by_cases hjl : j < l.length
    · rw [dif_pos hjl]
      rw [show (fun j : Fin l.length =>
          if j.1 = i then (⟨(l.get j).payment_id, []⟩ : PredictionRecord) else l.get j)
            ⟨j, hjl⟩
          = l.get ⟨j, hjl⟩ from by
        show (if j = i then (⟨(l.get ⟨j, hjl⟩).payment_id, []⟩ : PredictionRecord)
          else l.get ⟨j, hjl⟩) = l.get ⟨j, hjl⟩
        rw [if_neg hji]]
      rw [List.getElem?_eq_getElem hjl]
      rfl
    · rw [dif_neg hjl]
      symm
      exact List.getElem?_eq_none (by omega)
  · intro q hq
    obtain ⟨hjl, hlj⟩ := List.getElem?_eq_some_iff.mp hq
    rw [List.getElem?_ofFn]
    unfold List.ofFnNthVal
    rw [dif_pos hjl]
    rw [show (fun j : Fin l.length =>
        if j.1 = i then (⟨(l.get j).payment_id, []⟩ : PredictionRecord) else l.get j)
          ⟨i, hjl⟩
        = ⟨(l.get ⟨i, hjl⟩).payment_id, []⟩ from by
      show (if i = i then (⟨(l.get ⟨i, hjl⟩).payment_id, []⟩ : PredictionRecord)
        else l.get ⟨i, hjl⟩) = ⟨(l.get ⟨i, hjl⟩).payment_id, []⟩
      rw [if_pos rfl]]
    rw [show l.get ⟨i, hjl⟩ = q from hlj]

/-- Witness for C4: failing call 0 of a two-record run empties record A's
answers and leaves record B untouched. -/
theorem claim_C4_witness :
    ∃ l', dispatch [] (Json.obj [])
        (.singleOnly (fun j => if j = 0 then none else oracleEmptyW j)) [recWA, recWB] 1
        = .ok l'
      ∧ l'.length = ([⟨Json.str "A", []⟩, ⟨Json.str "B", []⟩] : List PredictionRecord).length
      ∧ (∀ j, j ≠ 0 →
          l'[j]? = ([⟨Json.str "A", []⟩, ⟨Json.str "B", []⟩] : List PredictionRecord)[j]?)
      ∧ (∀ q, ([⟨Json.str "A", []⟩, ⟨Json.str "B", []⟩] : List PredictionRecord)[0]? = some q →
          l'[0]? = some ⟨q.payment_id, []⟩) :=
  claim_C4_per_call_failure_isolated [] (Json.obj []) oracleEmptyW [recWA, recWB] 1 0
    [⟨Json.str "A", []⟩, ⟨Json.str "B", []⟩] rfl

/-- C5: the dispatcher falls back to parallel per-prompt calls exactly when
the backend lacks the bulk capability: with the capability present, a
transport error of the bulk call propagates to the caller and aborts the
run with no retry; and the fallback path can never produce a batch-level
transport error. -/
theorem claim_C5_bulk_transport_fatal :
    (∀ (few_shots : List Json) (controls : Json) (records : List Record)
        (batch_size : Nat) (gen : List String → Except PyErr (List String)) (msg : String),
      0 < batch_size → records ≠ [] →
      (∀ r ∈ records, (build_prompt r few_shots controls).isOk = true) →
      (∀ ps, gen ps = .error (.transport msg)) →
      dispatch few_shots controls (.bulkCapable gen) records batch_size
        = .error (.transport msg))
    ∧ (∀ (few_shots : List Json) (controls : Json) (records : List Record)
        (batch_size : Nat) (oracle : Nat → Option String) (msg : String),
      dispatch few_shots controls (.singleOnly oracle) records batch_size
        ≠ .error (.transport msg)) := by
  constructor
  · intro few c records bs gen msg hbs hne hv hgen
    unfold dispatch
    rw [if_neg (by omega)]
    cases records with
    | nil => exact absurd rfl hne
    | cons r rs =>
      rw [List.length_cons]
      unfold dispatchAux
      obtain ⟨ps, hps⟩ := exMapM_ok_of_forall (fun r2 => build_prompt r2 few c)
        ((r :: rs).take bs)
        (fun r2 hr2 => (except_isOk_iff _).mp (hv r2 (List.mem_of_mem_take hr2)))
      unfold runBatch
      rw [hps]
      dsimp only
      unfold batchTexts
      dsimp only
      rw [hgen ps]
  · intro few c records bs oracle msg h
    unfold dispatch at h
    by_cases hbs : bs = 0
    · rw [if_pos hbs] at h
      exact absurd h (by simp)
    · rw [if_neg hbs] at h
      exact dispatchAux_no_transport few c oracle bs records.length records 0 msg h

/-- Witness for C5: a bulk-capable backend whose bulk call fails with a
transport error aborts a one-record run with that error. -/
theorem claim_C5_witness :
    dispatch [] (Json.obj [])
      (.bulkCapable (fun _ => .error (.transport "down"))) [recWA] 1
      = .error (.transport "down") :=
  claim_C5_bulk_transport_fatal.1 [] (Json.obj []) [recWA] 1
    (fun _ => .error (.transport "down")) "down" (by decide) (by simp) (by decide)
    (fun ps => rfl)

/-- C7: `build_prompt` is deterministic and pure (a Lean function of its
arguments), never fails on structurally valid input (record has
`questions`, each exemplar is a dict with `payment` and `qa_pairs`), fails
with `KeyError("questions")` — the spec's `MissingFieldError` — when the
record lacks `questions`, and renders each exemplar with its own control
set, falling back to the global one exactly when the exemplar has no
`controls` key (adding the global set as the exemplar's own is
indistinguishable). -/
theorem claim_C7_build_prompt_contract :
    (∀ (record : Record) (few_shots : List Json) (controls : Json),
      (alookup record "questions").isSome = true →
      (∀ ex ∈ few_shots, validExemplar ex = true) →
      ∃ s, build_prompt record few_shots controls = .ok s)
    ∧ (∀ (record : Record) (few_shots : List Json) (controls : Json),
      alookup record "questions" = none →
      (∀ ex ∈ few_shots, validExemplar ex = true) →
      build_prompt record few_shots controls = .error (.keyError "questions"))
    ∧ (∀ (record : Record) (few1 few2 : List Json) (controls : Json)
        (kvs : List (String × Json)), alookup kvs "controls" = none →
      build_prompt record (few1 ++ .obj kvs :: few2) controls
        = build_prompt record (few1 ++ .obj (kvs ++ [("controls", controls)]) :: few2)
            controls) :=
  ⟨fun record few c hq hex => build_prompt_ok record few c hq hex,
    fun record few c hq hex => build_prompt_missing_questions record few c hq hex,
    fun record few1 few2 c kvs hnone =>
      build_prompt_controls_fallback record few1 few2 c kvs hnone⟩

/-- Witness for C7 at concrete records and exemplars. -/
theorem claim_C7_witness :
    (∃ s, build_prompt recWA [exemplarW] (Json.obj []) = .ok s)
    ∧ build_prompt [("payment_id", Json.str "A")] [exemplarW] (Json.obj [])
      = .error (.keyError "questions")
    ∧ build_prompt recWA ([] ++ .obj [("payment", Json.obj []), ("qa_pairs", Json.arr [])]
          :: []) (Json.obj [])
      = build_prompt recWA ([] ++ .obj ([("payment", Json.obj []), ("qa_pairs", Json.arr [])]
          ++ [("controls", Json.obj [])]) :: []) (Json.obj []) :=
  ⟨claim_C7_build_prompt_contract.1 recWA [exemplarW] (Json.obj []) (by decide) (by decide),
    claim_C7_build_prompt_contract.2.1 [("payment_id", Json.str "A")] [exemplarW]
      (Json.obj []) rfl (by decide),
    claim_C7_build_prompt_contract.2.2 recWA [] [] (Json.obj [])
      [("payment", Json.obj []), ("qa_pairs", Json.arr [])] rfl⟩

end GenAnswer
